import Mathlib

/-!
Verification development for `excel.go`.

A shallow embedding of the value decoder (`VARIANT.Value`), the stringifier
(`String`), the property accessor (`GetProperty`, `Except`) and the two
`SaveAs` wrappers of `src/excel.go`, followed by the theorems that settle the
claims C1..C10.

Conventions of the embedding.

* Go strings are Lean strings.  All the string operations of the source split
  at ASCII characters only, so working on code points instead of bytes does
  not change any result on well-formed UTF-8 text.
* The payload slot `ole.VARIANT.Val` is an `int64`; it is an `Int` here and a
  read of its low `w` bits is written `word % 2 ^ w` (little-endian host, the
  only kind the automation interface exists on).  Pointers are 8 bytes wide.
* A `float32`/`float64` is carried as its IEEE-754 bit pattern, so that a
  value read from the payload slot is reproduced bit for bit.  Where the
  source computes with a `float64` (the date case) the bit pattern is decoded
  to an exact dyadic number and every operation rounds to nearest-even.
* Calls that leave the repository (the automation host, `strconv`,
  `strings.ToLower`, the UTF-16 reader of go-ole, the local time zone) are
  fields of `Runtime` and `Host`.
-/

namespace Excel

/-! ## Values -/

/-- The tagged value `ole.VARIANT`: the type tag `VT` and the payload slot `Val`. -/
structure VARIANT where
  VT : Nat
  Val : Int
deriving DecidableEq, Repr

/-- A dynamic Go value (`interface{}`), by dynamic type.  Floats carry their bit
pattern, `utf16ptr` is a `*uint16`, `variant` is the wrapper `excel.VARIANT`,
`other` stands for a value of any further dynamic type (named by `kind`). -/
inductive GoValue where
  | nil
  | str (s : String)
  | int (v : Int)
  | int8 (v : Int)
  | int16 (v : Int)
  | int32 (v : Int)
  | int64 (v : Int)
  | uint8 (v : Nat)
  | uint16 (v : Nat)
  | uint32 (v : Nat)
  | uint64 (v : Nat)
  | float32 (bits : Nat)
  | float64 (bits : Nat)
  | bool (b : Bool)
  | utf16ptr (p : Nat)
  | variant (va : VARIANT)
  | other (kind : String)
deriving DecidableEq, Repr

/-- What the source takes from outside the repository when decoding and
rendering values. -/
structure Runtime where
  /-- The go-ole reader `ole.UTF16PtrToString`, applied to an address. -/
  UTF16PtrToString : Nat → String
  /-- The call `strconv.FormatFloat(x, 'f', -1, 64)` on the bit pattern of `x`. -/
  FormatFloat : Nat → String
  /-- The conversion `float64(x)` of a float32, on bit patterns. -/
  Float32To64 : Nat → Nat
  /-- The offset of the local time zone, east of UTC, in seconds, at a unix second. -/
  Local : Int → Int
  /-- The library function `strings.ToLower`. -/
  ToLower : String → String

/-! ## Reading the payload slot -/

/-- The low `w` bits of the payload word, read as an unsigned integer. -/
def unsignedOf (w : Nat) (word : Int) : Nat :=
  (word % 2 ^ w).toNat

/-- The low `w` bits of the payload word, read as a two-complement signed integer. -/
def signedOf (w : Nat) (word : Int) : Int :=
  let u := word % 2 ^ w
  if u < 2 ^ (w - 1) then u else u - 2 ^ w

/-! ## float64 arithmetic -/

/-- A float64 value: not-a-number, an infinity, or the finite number `m * 2 ^ e`. -/
inductive Float64 where
  | nan
  | inf (neg : Bool)
  | fin (m : Int) (e : Int)
deriving DecidableEq, Repr

/-- Number of binary digits of `n`, with `fuel` an upper bound on it. -/
def bitLenAux : Nat → Nat → Nat
  | 0, _ => 0
  | fuel + 1, n => if n = 0 then 0 else bitLenAux fuel (n / 2) + 1

/-- Number of binary digits of `n` (0 for 0). -/
def bitLen (n : Nat) : Nat :=
  bitLenAux n n

namespace Float64

/-- Decoding of an IEEE-754 binary64 bit pattern. -/
def ofBits (bits : Nat) : Float64 :=
  let neg : Bool := decide (bits / 2 ^ 63 % 2 = 1)
  let ex : Nat := bits / 2 ^ 52 % 2 ^ 11
  let mant : Nat := bits % 2 ^ 52
  if ex = 2047 then
    if mant = 0 then inf neg else nan
  else if ex = 0 then
    fin (if neg then -(mant : Int) else mant) (-1074)
  else
    fin (if neg then -((2 ^ 52 + mant : Nat) : Int) else (2 ^ 52 + mant : Nat)) ((ex : Int) - 1075)

/-- Rounding of the exact number `m * 2 ^ e` to the nearest float64, ties to even. -/
def round (m : Int) (e : Int) : Float64 :=
  let a := m.natAbs
  if a = 0 then fin 0 0
  else
    let len : Int := (bitLen a : Nat)
    let e1 : Int := max (e + len - 53) (-1074)
    if e1 ≤ e then
      if e + len > 1024 then inf (decide (m < 0)) else fin m e
    else
      let shift : Nat := (e1 - e).toNat
      let q : Nat := a / 2 ^ shift
      let r : Nat := a % 2 ^ shift
      let half : Nat := 2 ^ (shift - 1)
      let q1 : Nat := if r > half ∨ (r = half ∧ q % 2 = 1) then q + 1 else q
      if (bitLen q1 : Int) + e1 > 1024 then inf (decide (m < 0))
      else fin (if m < 0 then -(q1 : Int) else q1) e1

/-- The float64 sum. -/
def add : Float64 → Float64 → Float64
  | nan, _ => nan
  | _, nan => nan
  | inf a, inf b => if a = b then inf a else nan
  | inf a, fin _ _ => inf a
  | fin _ _, inf b => inf b
  | fin m1 e1, fin m2 e2 =>
    let e := min e1 e2
    round (m1 * 2 ^ (e1 - e).toNat + m2 * 2 ^ (e2 - e).toNat) e

/-- The float64 negation. -/
def neg : Float64 → Float64
  | nan => nan
  | inf a => inf (!a)
  | fin m e => fin (-m) e

/-- The float64 difference. -/
def sub (x y : Float64) : Float64 :=
  add x (neg y)

/-- The float64 product. -/
def mul : Float64 → Float64 → Float64
  | nan, _ => nan
  | _, nan => nan
  | inf a, inf b => inf (a != b)
  | inf a, fin m _ => if m = 0 then nan else inf (a != decide (m < 0))
  | fin m _, inf b => if m = 0 then nan else inf (decide (m < 0) != b)
  | fin m1 e1, fin m2 e2 => round (m1 * m2) (e1 + e2)

/-- The conversion `int64(x)`: truncation toward zero.  When the truncated value
does not fit an int64 (also for NaN and the infinities) the Go result depends
on the processor; it is the amd64 one here, the smallest int64. -/
def toInt64 : Float64 → Int
  | nan => -2 ^ 63
  | inf _ => -2 ^ 63
  | fin m e =>
    let t : Int := if 0 ≤ e then m * 2 ^ e.toNat else Int.tdiv m (2 ^ (-e).toNat)
    if -2 ^ 63 ≤ t ∧ t < 2 ^ 63 then t else -2 ^ 63

/-- The integer constant `n` as a float64. -/
def ofInt (n : Int) : Float64 :=
  round n 0

end Float64

/-! ## Decimal rendering and time formatting -/

/-- The call `strconv.FormatUint(n, 10)`. -/
def FormatUint (n : Nat) : String :=
  Nat.repr n

/-- The call `strconv.FormatInt(v, 10)`. -/
def FormatInt (v : Int) : String :=
  if v < 0 then "-" ++ Nat.repr v.natAbs else Nat.repr v.natAbs

/-- Decimal digits of `n`, zero-padded on the left to at least `w` digits. -/
def padInt (w : Nat) (n : Nat) : String :=
  let s := Nat.repr n
  String.mk (List.replicate (w - s.length) '0') ++ s

/-- Year, month and day of the proleptic Gregorian calendar for a day count
relative to 1970-01-01. -/
def civilFromDays (days : Int) : Int × Nat × Nat :=
  let z := days + 719468
  let era := z / 146097
  let doe := (z % 146097).toNat
  let yoe := (doe - doe / 1460 + doe / 36524 - doe / 146096) / 365
  let doy := doe - (365 * yoe + yoe / 4 - yoe / 100)
  let mp := (5 * doy + 2) / 153
  let d := doy - (153 * mp + 2) / 5 + 1
  let m := if mp < 10 then mp + 3 else mp - 9
  let y : Int := (yoe : Int) + era * 400 + (if m ≤ 2 then 1 else 0)
  (y, m, d)

/-- The call `time.Unix(sec, 0).Format("2006-01-02 15:04:05")`: the instant `sec`
seconds after 1970-01-01 00:00:00 UTC, shown in the local zone whose offset at
an instant is `loc`.  (For instants so close to the ends of the int64 range
that the library's own arithmetic wraps, this is the unwrapped calendar
date.) -/
def UnixFormat (loc : Int → Int) (sec : Int) : String :=
  let t := sec + loc sec
  let days := t / 86400
  let rem := (t % 86400).toNat
  let ymd := civilFromDays days
  let year := if ymd.1 < 0 then "-" ++ padInt 4 ymd.1.natAbs else padInt 4 ymd.1.natAbs
  year ++ "-" ++ padInt 2 ymd.2.1 ++ "-" ++ padInt 2 ymd.2.2 ++ " " ++
    padInt 2 (rem / 3600) ++ ":" ++ padInt 2 (rem % 3600 / 60) ++ ":" ++ padInt 2 (rem % 60)

/-- The unix second computed for a date payload:
`int64((_val7-70*365-19)*24*3600+0.5)`. -/
def dateSeconds (val7 : Float64) : Int :=
  Float64.toInt64
    (Float64.add
      (Float64.mul
        (Float64.mul
          (Float64.sub (Float64.sub val7 (Float64.ofInt (70 * 365))) (Float64.ofInt 19))
          (Float64.ofInt 24))
        (Float64.ofInt 3600))
      (Float64.fin 1 (-1)))

/-! ## The decoder and the stringifier -/

/-- The method `func (va VARIANT) Value() (val interface{})`. -/
def VARIANT.Value (rt : Runtime) (va : VARIANT) : GoValue :=
  match va.VT with
  | 0 => .str ""
  | 1 => .str ""
  | 2 => .int16 (signedOf 16 va.Val)
  | 3 => .int32 (signedOf 32 va.Val)
  | 4 => .float32 (unsignedOf 32 va.Val)
  | 5 => .float64 (unsignedOf 64 va.Val)
  | 7 => .str (UnixFormat rt.Local (dateSeconds (Float64.ofBits (unsignedOf 64 va.Val))))
  | 8 => .str (rt.UTF16PtrToString (unsignedOf 64 va.Val))
  | 9 => .variant va
  | 10 => .str "#VT_ERROR"
  | 11 => .bool (decide (unsignedOf 8 va.Val ≠ 0))
  | 16 => .int8 (signedOf 8 va.Val)
  | 17 => .uint8 (unsignedOf 8 va.Val)
  | 18 => .uint16 (unsignedOf 16 va.Val)
  | 19 => .uint32 (unsignedOf 32 va.Val)
  | 20 => .int64 (signedOf 64 va.Val)
  | 21 => .uint64 (unsignedOf 64 va.Val)
  | _ => .variant va

/-- The function `func String(val interface{}) (ret string)` (named `StringOf`
here, `String` being the type of texts). -/
def StringOf (rt : Runtime) : GoValue → String
  | .int v => FormatInt v
  | .int8 v => FormatInt v
  | .int16 v => FormatInt v
  | .int32 v => FormatInt v
  | .int64 v => FormatInt v
  | .float32 bits => rt.FormatFloat (rt.Float32To64 bits)
  | .float64 bits => rt.FormatFloat bits
  | .uint8 v => FormatUint v
  | .uint16 v => FormatUint v
  | .uint32 v => FormatUint v
  | .uint64 v => FormatUint v
  | .utf16ptr p => rt.UTF16PtrToString p
  | .bool b => if b then "true" else "false"
  | .str s => s
  | _ => ""

/-! ## The automation host -/

/-- Answer of the automation host to a call: the error text, or the value. -/
inductive Reply where
  | failed (text : String)
  | ok (v : VARIANT)
deriving DecidableEq, Repr

/-- What the accessor does to the host, in the order it does it. -/
inductive Event where
  | get (idisp : Nat) (name : String) (res : Reply)
  | call (idisp : Nat) (name : String) (args : List GoValue) (res : Reply)
  | release (idisp : Nat)
deriving DecidableEq, Repr

/-- The automation host.  Its answers may depend on everything that was done to
it before (automation calls are not idempotent), which is the list of events
passed first. -/
structure Host where
  /-- The call `oleutil.GetProperty(idisp, name)`. -/
  GetProperty : List Event → Nat → String → Reply
  /-- The call `oleutil.CallMethod(idisp, name, args...)`. -/
  CallMethod : List Event → Nat → String → List GoValue → Reply
  /-- The conversion `(*ole.VARIANT).ToIDispatch`. -/
  ToIDispatch : VARIANT → Nat

/-- The function `func Except(info string, err *error, funcs... interface{})` for a
non-nil `err` pointer and no `funcs`: `r` is the recovered panic value as
`%+v` prints it, `err` the error held so far; the result is the error stored. -/
def Except (info : String) (err : Option String) (r : Option String) : Option String :=
  match r with
  | some p => some ("@" ++ info ++ ": " ++ p)
  | none =>
    match err with
    | some e => some ("%" ++ info ++ "%" ++ e)
    | none => none

/-! ## String helpers of the Go library -/

/-- Pieces of a character list between the occurrences of `sep`. -/
def splitChars (sep : Char) : List Char → List (List Char)
  | [] => [[]]
  | c :: cs =>
    if c = sep then [] :: splitChars sep cs
    else
      match splitChars sep cs with
      | [] => [[c]]
      | p :: ps => (c :: p) :: ps

/-- The call `strings.Split(s, sep)` for a separator of one character. -/
def Split (s : String) (sep : Char) : List String :=
  (splitChars sep s.data).map String.mk

/-- The call `strings.Join(sl, sep)`. -/
def Join (sl : List String) (sep : String) : String :=
  sep.intercalate sl

/-- The call `strings.HasSuffix(s, suffix)`. -/
def HasSuffix (s suffix : String) : Bool :=
  suffix.data.isSuffixOf s.data

/-- Replacement of the first occurrence of `old` in `s`; an empty `old` occurs at
the very beginning. -/
def replaceFirstChars (old new : List Char) : List Char → List Char
  | [] => if old = [] then new else []
  | c :: cs =>
    if old.isPrefixOf (c :: cs) then new ++ (c :: cs).drop old.length
    else c :: replaceFirstChars old new cs

/-- The call `strings.Replace(s, old, new, 1)`. -/
def ReplaceFirst (s old new : String) : String :=
  String.mk (replaceFirstChars old.data new.data s.data)

/-- Scan of a path from its end for `filepath.Ext`: `acc` is what was passed over. -/
def extScan : List Char → List Char → List Char
  | [], _ => []
  | c :: rest, acc =>
    if c = '\\' ∨ c = '/' then []
    else if c = '.' then c :: acc
    else extScan rest (c :: acc)

/-- The call `filepath.Ext(path)` (on the host platform both `\` and `/` separate
path elements): the suffix of the last element from its last dot on. -/
def Ext (path : String) : String :=
  String.mk (extScan path.data.reverse [])

/-- The call `strconv.Itoa(i)`. -/
def Itoa (i : Int) : String :=
  FormatInt i

/-! ## The property accessor -/

/-- State of one run of `GetProperty`: the current handle `idisp`, the events so
far, the handles whose `Release` is deferred (latest first), the text of the
panic under way if any. -/
structure Frame where
  idisp : Nat
  trace : List Event
  deferred : List Nat
  panicked : Option String
deriving DecidableEq, Repr

/-- The call `oleutil.MustGetProperty(idisp, name)` in a frame: the read is
recorded; a failed read panics with the error text. -/
def MustGetProperty (host : Host) (fr : Frame) (name : String) : Frame × Option VARIANT :=
  match host.GetProperty fr.trace fr.idisp name with
  | .failed e =>
    ({ fr with trace := fr.trace ++ [Event.get fr.idisp name (.failed e)], panicked := some e }, none)
  | .ok v =>
    ({ fr with trace := fr.trace ++ [Event.get fr.idisp name (.ok v)] }, some v)

/-- The loop over the intermediate segments:
`idisp = oleutil.MustGetProperty(idisp, args[i]).ToIDispatch(); defer DoFuncs(idisp.Release)`. -/
def walk (host : Host) : List String → Frame → Frame
  | [], fr => fr
  | a :: rest, fr =>
    match MustGetProperty host fr a with
    | (fr1, none) => fr1
    | (fr1, some v) =>
      let h := host.ToIDispatch v
      walk host rest { fr1 with idisp := h, deferred := h :: fr1.deferred }

/-- The loop of the multi-property read:
`sl = append(sl, key+":"+String(VARIANT{oleutil.MustGetProperty(idisp, key)}.Value()))`. -/
def readKeys (rt : Runtime) (host : Host) : List String → Frame → List String → Frame × List String
  | [], fr, sl => (fr, sl)
  | key :: rest, fr, sl =>
    match MustGetProperty host fr key with
    | (fr1, none) => (fr1, sl)
    | (fr1, some v) => readKeys rt host rest fr1 (sl ++ [key ++ ":" ++ StringOf rt (VARIANT.Value rt v)])

/-- What a run of `GetProperty` returns (`ret`, `err`) and what it did to the host. -/
structure Outcome where
  ret : GoValue
  err : Option String
  trace : List Event
deriving DecidableEq, Repr

/-- Body of `GetProperty` up to its return: the final frame and `ret`. -/
def getBody (rt : Runtime) (host : Host) (idisp : Nat) : Option (List String) → Frame × GoValue
  | none =>
    match MustGetProperty host ⟨idisp, [], [], none⟩ "Value" with
    | (fr, none) => (fr, .nil)
    | (fr, some v) => (fr, VARIANT.Value rt v)
  | some args =>
    match args.getLast? with
    | none => (⟨idisp, [], [], some "runtime error: index out of range [-1]"⟩, .nil)
    | some argv =>
      let fr := walk host args.dropLast ⟨idisp, [], [], none⟩
      match fr.panicked with
      | some _ => (fr, .nil)
      | none =>
        if ',' ∈ argv.data then
          match readKeys rt host (Split argv ',') fr [] with
          | (fr1, sl) =>
            match fr1.panicked with
            | some _ => (fr1, .nil)
            | none => (fr1, .str (Join sl ", "))
        else
          match MustGetProperty host fr argv with
          | (fr1, none) => (fr1, .nil)
          | (fr1, some v) => (fr1, VARIANT.Value rt v)

/-- The function `func GetProperty(idisp *ole.IDispatch, args... string) (ret interface{}, err error)`.
`args` is `none` for the nil slice (a call without path) and `some l` for a
non-nil slice.  On return the deferred releases run, latest first, then
`Except("GetProperty", &err)`. -/
def GetProperty (rt : Runtime) (host : Host) (idisp : Nat) (args : Option (List String)) : Outcome :=
  let body := getBody rt host idisp args
  { ret := body.2
    err := Except "GetProperty" none body.1.panicked
    trace := body.1.trace ++ body.1.deferred.map Event.release }

/-! ## Reading a trace -/

/-- A property read that failed. -/
def Event.isFailedGet : Event → Bool
  | .get _ _ (.failed _) => true
  | _ => false

/-- A property read that succeeded. -/
def Event.isOkGet : Event → Bool
  | .get _ _ (.ok _) => true
  | _ => false

/-- The release of a handle. -/
def Event.isRelease : Event → Bool
  | .release _ => true
  | _ => false

/-- The answer recorded in an event is the one the host gives after the events `before`. -/
def Event.answeredAfter (host : Host) (before : List Event) : Event → Bool
  | .get h n r => decide (r = host.GetProperty before h n)
  | .call h n a r => decide (r = host.CallMethod before h n a)
  | .release _ => true

/-- Every event of `rest` records the answer of the host at its place, `before`
being what happened earlier. -/
def answeredFrom (host : Host) : List Event → List Event → Bool
  | _, [] => true
  | before, ev :: rest =>
    ev.answeredAfter host before && answeredFrom host (before ++ [ev]) rest

/-- The trace records the answers of the host, event by event. -/
def answered (host : Host) (trace : List Event) : Bool :=
  answeredFrom host [] trace

/-! ## The path and the reads, told from the host -/

/-- The object a path leads to, as the host tells it: from the handle `obj`, after
the events `tr`, each segment is read on the current object and the value read
is the next object.  The result is the object reached, the events after the
last segment, and the handles acquired (latest first); `none` when a read
fails. -/
def pathTarget (host : Host) :
    List String → Nat → List Event → List Nat → Option (Nat × List Event × List Nat)
  | [], obj, tr, held => some (obj, tr, held)
  | a :: rest, obj, tr, held =>
    match host.GetProperty tr obj a with
    | .failed _ => none
    | .ok v =>
      pathTarget host rest (host.ToIDispatch v) (tr ++ [Event.get obj a (.ok v)])
        (host.ToIDispatch v :: held)

/-- The values of the properties `keys` of the object `obj`, as the host tells them
when they are read in this order after the events `tr`, and the events after
the last read; `none` when a read fails. -/
def readValues (host : Host) (obj : Nat) :
    List String → List Event → Option (List VARIANT × List Event)
  | [], tr => some ([], tr)
  | k :: ks, tr =>
    match host.GetProperty tr obj k with
    | .failed _ => none
    | .ok v =>
      match readValues host obj ks (tr ++ [Event.get obj k (.ok v)]) with
      | none => none
      | some (vs, tr1) => some (v :: vs, tr1)

/-! ## Saving workbooks -/

/-- The part of `MSO` the workbooks use: the table `FILEFORMAT`. -/
structure MSO where
  FILEFORMAT : String → Option Int

/-- The table set by `Initialize`:
`mso.FILEFORMAT = map[string]int {"txt":-4158, "csv":6, "html":44}`. -/
def Initialize : MSO :=
  { FILEFORMAT := fun k =>
      if k = "txt" then some (-4158)
      else if k = "csv" then some 6
      else if k = "html" then some 44
      else none }

/-- A workbook: its handle and the `MSO` it belongs to. -/
structure WorkBook where
  Idisp : Nat
  mso : MSO

/-- The rewriting of the arguments at the head of `WorkBook.SaveAs`: the new
contents of `args`, and the text of the panic when `args[0].(string)` fails. -/
def WorkBook.normalize (rt : Runtime) (wb : WorkBook) (args : List GoValue) :
    List GoValue × Option String :=
  match args with
  | a0 :: .str f :: rest =>
    let ffs := rt.ToLower f
    match wb.mso.FILEFORMAT ffs with
    | some n =>
      match a0 with
      | .str fn =>
        ((if HasSuffix fn ("." ++ ffs) then GoValue.str fn else GoValue.str (fn ++ "." ++ ffs))
          :: .int n :: rest, none)
      | _ => (args, some "interface conversion: interface {} is not string")
    | none => (a0 :: .nil :: rest, none)
  | _ => (args, none)

/-- What one `WorkBook.SaveAs` leaves behind: the error it returns, the contents
of the argument slice afterwards (the slice is shared with the caller), the
events so far. -/
structure Saved where
  err : Option String
  args : List GoValue
  trace : List Event
deriving DecidableEq, Repr

/-- The method `func (wb WorkBook) SaveAs(args... interface{}) (err error)`. -/
def WorkBook.SaveAs (rt : Runtime) (host : Host) (wb : WorkBook) (tr : List Event)
    (args : List GoValue) : Saved :=
  match WorkBook.normalize rt wb args with
  | (args1, some p) => ⟨Except "WorkBook.SaveAs" none (some p), args1, tr⟩
  | (args1, none) =>
    match host.CallMethod tr wb.Idisp "SaveAs" args1 with
    | .failed e =>
      ⟨Except "WorkBook.SaveAs" (some e) none, args1,
        tr ++ [Event.call wb.Idisp "SaveAs" args1 (.failed e)]⟩
    | .ok v => ⟨none, args1, tr ++ [Event.call wb.Idisp "SaveAs" args1 (.ok v)]⟩

/-- One turn of the loops of `WorkBooks.SaveAs`: the arguments the workbook's
`SaveAs` was called with, and the error it returned. -/
structure SaveRecord where
  passed : List GoValue
  err : Option String
deriving DecidableEq, Repr

/-- The loop of the branch `num < 2`: `errs = append(errs, wb.SaveAs(args...))`. -/
def saveEach (rt : Runtime) (host : Host) :
    List WorkBook → List GoValue → List Event → List SaveRecord × List Event
  | [], _, tr => ([], tr)
  | wb :: rest, args, tr =>
    let r := WorkBook.SaveAs rt host wb tr args
    let more := saveEach rt host rest r.args r.trace
    (⟨args, r.err⟩ :: more.1, more.2)

/-- The loop of the branch `num >= 2`, from index `i` on:
`args[0] = strings.Replace(full, ext, "_"+strconv.Itoa(i)+ext, 1)` and then
`errs = append(errs, wb.SaveAs(args...))`. -/
def saveNumbered (rt : Runtime) (host : Host) (full ext : String) :
    Nat → List WorkBook → List GoValue → List Event → List SaveRecord × List Event
  | _, [], _, tr => ([], tr)
  | i, wb :: rest, args, tr =>
    let args1 := args.set 0 (.str (ReplaceFirst full ext ("_" ++ Itoa i ++ ext)))
    let r := WorkBook.SaveAs rt host wb tr args1
    let more := saveNumbered rt host full ext (i + 1) rest r.args r.trace
    (⟨args1, r.err⟩ :: more.1, more.2)

/-- The method `func (wbs WorkBooks) SaveAs(args... interface{}) (errs []error)`.
The result is `none` when the method panics (`args[0].(string)` on a missing
or non-string first argument; no `Except` is deferred here). -/
def WorkBooks.SaveAs (rt : Runtime) (host : Host) (wbs : List WorkBook) (tr : List Event)
    (args : List GoValue) : Option (List SaveRecord × List Event) :=
  if wbs.length < 2 then some (saveEach rt host wbs args tr)
  else
    match args with
    | .str full :: _ => some (saveNumbered rt host full (Ext full) 0 wbs args tr)
    | _ => none

/-- The error list `errs` that `WorkBooks.SaveAs` returns. -/
def errsOf (recs : List SaveRecord) : List (Option String) :=
  recs.map SaveRecord.err

/-! ## Encoding a native value into the payload slot -/

/-- The payload word whose low `w` bits are `bits` and whose remaining high-order
bits are those of `high`. -/
def storePayload (w : Nat) (bits : Nat) (high : Int) : Int :=
  (bits : Int) + 2 ^ w * high

/-- The `w`-bit two-complement bit pattern of a signed integer. -/
def twoComplement (w : Nat) (x : Int) : Nat :=
  (x % 2 ^ w).toNat

/-- The byte a Go `bool` is stored as. -/
def boolByte (b : Bool) : Nat :=
  if b then 1 else 0

/-- The kinds of value the stringifier supports: int, int8, int16, int32, int64,
uint8, uint16, uint32, uint64, float32, float64, bool, string and the UTF-16
buffer pointer. -/
def GoValue.supported : GoValue → Bool
  | .int _ => true
  | .int8 _ => true
  | .int16 _ => true
  | .int32 _ => true
  | .int64 _ => true
  | .uint8 _ => true
  | .uint16 _ => true
  | .uint32 _ => true
  | .uint64 _ => true
  | .float32 _ => true
  | .float64 _ => true
  | .bool _ => true
  | .str _ => true
  | .utf16ptr _ => true
  | .nil => false
  | .variant _ => false
  | .other _ => false

/-- The number a list of decimal digit characters stands for. -/
def decimalValue (ds : List Char) : Nat :=
  ds.foldl (fun a c => 10 * a + (c.toNat - 48)) 0

/-- The file name `WorkBook.SaveAs` sends for the name `fn` and the lower-cased
format `ffs`: `fn` when it already ends with `.ffs`, else `fn` with `.ffs`
appended. -/
def withFormatSuffix (fn ffs : String) : String :=
  if HasSuffix fn ("." ++ ffs) then fn else fn ++ "." ++ ffs

/-- The path `WorkBooks.SaveAs` passes to the workbook of index `i`. -/
def numberedPath (full : String) (i : Nat) : String :=
  ReplaceFirst full (Ext full) ("_" ++ Itoa i ++ Ext full)

/-- The error `WorkBook.SaveAs` returns for an answer of the host to `SaveAs`. -/
def errOfReply : Reply → Option String
  | .failed e => some ("%WorkBook.SaveAs%" ++ e)
  | .ok _ => none

/-- The host is sent the method `SaveAs` on each handle with its argument list,
in order, after the events `tr`: the errors returned, and the events
afterwards. -/
def hostSaveAs (host : Host) :
    List (Nat × List GoValue) → List Event → List (Option String) × List Event
  | [], tr => ([], tr)
  | (h, a) :: rest, tr =>
    let more := hostSaveAs host rest
      (tr ++ [Event.call h "SaveAs" a (host.CallMethod tr h "SaveAs" a)])
    (errOfReply (host.CallMethod tr h "SaveAs" a) :: more.1, more.2)

/-- The argument lists the host is sent by `WorkBooks.SaveAs` on two workbooks or
more, called with the path `full` and the further arguments `rest`: for the
first workbook the numbered path and `rest` as its own `SaveAs` normalises
them; for the workbook of index `i >= 1` the numbered path `numberedPath full i`
followed by what the first normalisation left of `rest`. -/
def sentArgs (rt : Runtime) (wbs : List WorkBook) (full : String) (rest : List GoValue) :
    List (List GoValue) :=
  match wbs with
  | [] => []
  | wb :: more =>
    (WorkBook.normalize rt wb (.str (numberedPath full 0) :: rest)).1 ::
      (List.range' 1 more.length).map
        (fun i => GoValue.str (numberedPath full i) ::
          (WorkBook.normalize rt wb (.str (numberedPath full 0) :: rest)).1.tail)

/-! ## Example objects -/

/-- A runtime in the zone UTC; the address 4096 holds the UTF-16 text `x`. -/
def exampleRuntime : Runtime :=
  { UTF16PtrToString := fun p => if p = 4096 then "x" else ""
    FormatFloat := fun _ => ""
    Float32To64 := fun b => b
    Local := fun _ => 0
    ToLower := fun s => String.mk (s.data.map Char.toLower) }

/-- A host with one object, the handle 1, whose property `A` is the int32 1, whose
property `B` is the text at address 4096, whose property `Next` is the object
itself and whose property `Value` is the int32 7; every other read fails. -/
def exampleHost : Host :=
  { GetProperty := fun _ idisp name =>
      if idisp = 1 ∧ name = "A" then .ok ⟨3, 1⟩
      else if idisp = 1 ∧ name = "B" then .ok ⟨8, 4096⟩
      else if idisp = 1 ∧ name = "Next" then .ok ⟨9, 1⟩
      else if idisp = 1 ∧ name = "Value" then .ok ⟨3, 7⟩
      else .failed "unknown name"
    CallMethod := fun _ _ _ _ => .ok ⟨0, 0⟩
    ToIDispatch := fun v => v.Val.toNat }

/-- A host with two objects: the handle 1 has the properties `A` = 111 and
`B` = 112 (int32) and the property `Child`, the object of handle 2, whose
properties are `A` = 222 and `B` = 223; every other read fails.  The method
`SaveAs` fails on the handle 3 and succeeds elsewhere. -/
def nestedHost : Host :=
  { GetProperty := fun _ idisp name =>
      if idisp = 1 ∧ name = "A" then .ok ⟨3, 111⟩
      else if idisp = 1 ∧ name = "B" then .ok ⟨3, 112⟩
      else if idisp = 1 ∧ name = "Child" then .ok ⟨9, 2⟩
      else if idisp = 2 ∧ name = "A" then .ok ⟨3, 222⟩
      else if idisp = 2 ∧ name = "B" then .ok ⟨3, 223⟩
      else .failed "unknown name"
    CallMethod := fun _ idisp _ _ => if idisp = 3 then .failed "cannot save" else .ok ⟨0, 0⟩
    ToIDispatch := fun v => v.Val.toNat }

/-! ## Theorems: the decoder -/

theorem unsignedOf_storePayload (w : Nat) (bits : Nat) (high : Int) (h : bits < 2 ^ w) :
    unsignedOf w (storePayload w bits high) = bits := by
  unfold unsignedOf storePayload
  rw [Int.add_mul_emod_self_left]
  have hb : ((bits : Int)) < 2 ^ w := by exact_mod_cast h
  rw [Int.emod_eq_of_lt (Int.ofNat_nonneg bits) hb]
  exact Int.toNat_ofNat bits

theorem twoComplement_lt (w : Nat) (x : Int) : twoComplement w x < 2 ^ w := by
  unfold twoComplement
  have hp : (0 : Int) < 2 ^ w := by positivity
  have h1 : x % 2 ^ w < 2 ^ w := Int.emod_lt_of_pos x hp
  have h0 : 0 ≤ x % 2 ^ w := Int.emod_nonneg x (ne_of_gt hp)
  have : ((x % 2 ^ w).toNat : Int) < ((2 ^ w : Nat) : Int) := by
    rw [Int.toNat_of_nonneg h0]
    exact_mod_cast h1
  exact_mod_cast this

theorem signedOf_of_unsignedOf (w : Nat) (hw : 0 < w) (word x : Int)
    (hlo : -2 ^ (w - 1) ≤ x) (hhi : x < 2 ^ (w - 1))
    (h : unsignedOf w word = twoComplement w x) : signedOf w word = x := by
  obtain ⟨k, rfl⟩ : ∃ k, w = k + 1 := ⟨w - 1, by omega⟩
  simp only [Nat.add_sub_cancel] at hlo hhi
  have hp : (0 : Int) < 2 ^ k := by positivity
  have h2 : (2 : Int) ^ (k + 1) = 2 * 2 ^ k := by ring
  have e1 : word % 2 ^ (k + 1) = x % 2 ^ (k + 1) := by
    have a1 : 0 ≤ word % 2 ^ (k + 1) := Int.emod_nonneg _ (by positivity)
    have a2 : 0 ≤ x % 2 ^ (k + 1) := Int.emod_nonneg _ (by positivity)
    unfold unsignedOf twoComplement at h
    omega
  unfold signedOf
  simp only [Nat.add_sub_cancel, e1]
  by_cases hx : 0 ≤ x
  · have : x % 2 ^ (k + 1) = x := Int.emod_eq_of_lt hx (by omega)
    rw [this, if_pos hhi]
  · have : x % 2 ^ (k + 1) = x + 2 ^ (k + 1) := by
      have h3 := Int.add_mul_emod_self (a := x) (b := 1) (c := 2 ^ (k + 1))
      rw [one_mul] at h3
      rw [← h3]
      exact Int.emod_eq_of_lt (by omega) (by omega)
    rw [this, if_neg (by omega)]
    omega

theorem signedOf_storePayload (w : Nat) (hw : 0 < w) (x high : Int)
    (hlo : -2 ^ (w - 1) ≤ x) (hhi : x < 2 ^ (w - 1)) :
    signedOf w (storePayload w (twoComplement w x) high) = x :=
  signedOf_of_unsignedOf w hw _ x hlo hhi
    (unsignedOf_storePayload w _ high (twoComplement_lt w x))

/-- C1. Round trip for the fixed-width tags 2, 3, 4, 5, 11, 16, 17, 18, 19, 20, 21:
when the payload word holds the bits of a native value `x` of the matching
type in its low-order bits, whatever its remaining high-order bits `high`
are, `Value` returns exactly `x`, with that type. -/
theorem C1_fixed_width_round_trip (rt : Runtime) (high : Int) :
    (∀ x : Int, -2 ^ 15 ≤ x → x < 2 ^ 15 →
      VARIANT.Value rt ⟨2, storePayload 16 (twoComplement 16 x) high⟩ = .int16 x) ∧
    (∀ x : Int, -2 ^ 31 ≤ x → x < 2 ^ 31 →
      VARIANT.Value rt ⟨3, storePayload 32 (twoComplement 32 x) high⟩ = .int32 x) ∧
    (∀ bits : Nat, bits < 2 ^ 32 →
      VARIANT.Value rt ⟨4, storePayload 32 bits high⟩ = .float32 bits) ∧
    (∀ bits : Nat, bits < 2 ^ 64 →
      VARIANT.Value rt ⟨5, storePayload 64 bits high⟩ = .float64 bits) ∧
    (∀ b : Bool, VARIANT.Value rt ⟨11, storePayload 8 (boolByte b) high⟩ = .bool b) ∧
    (∀ x : Int, -2 ^ 7 ≤ x → x < 2 ^ 7 →
      VARIANT.Value rt ⟨16, storePayload 8 (twoComplement 8 x) high⟩ = .int8 x) ∧
    (∀ x : Nat, x < 2 ^ 8 → VARIANT.Value rt ⟨17, storePayload 8 x high⟩ = .uint8 x) ∧
    (∀ x : Nat, x < 2 ^ 16 → VARIANT.Value rt ⟨18, storePayload 16 x high⟩ = .uint16 x) ∧
    (∀ x : Nat, x < 2 ^ 32 → VARIANT.Value rt ⟨19, storePayload 32 x high⟩ = .uint32 x) ∧
    (∀ x : Int, -2 ^ 63 ≤ x → x < 2 ^ 63 →
      VARIANT.Value rt ⟨20, storePayload 64 (twoComplement 64 x) high⟩ = .int64 x) ∧
    (∀ x : Nat, x < 2 ^ 64 → VARIANT.Value rt ⟨21, storePayload 64 x high⟩ = .uint64 x) := by
  refine ⟨?_, ?_, ?_, ?_, ?_, ?_, ?_, ?_, ?_, ?_, ?_⟩
  · intro x hlo hhi
    show GoValue.int16 (signedOf 16 _) = _
    rw [signedOf_storePayload 16 (by decide) x high hlo hhi]
  · intro x hlo hhi
    show GoValue.int32 (signedOf 32 _) = _
    rw [signedOf_storePayload 32 (by decide) x high hlo hhi]
  · intro bits hb
    show GoValue.float32 (unsignedOf 32 _) = _
    rw [unsignedOf_storePayload 32 bits high hb]
  · intro bits hb
    show GoValue.float64 (unsignedOf 64 _) = _
    rw [unsignedOf_storePayload 64 bits high hb]
  · intro b
    show GoValue.bool (decide (unsignedOf 8 _ ≠ 0)) = _
    rw [unsignedOf_storePayload 8 (boolByte b) high (by cases b <;> decide)]
    cases b <;> rfl
  · intro x hlo hhi
    show GoValue.int8 (signedOf 8 _) = _
    rw [signedOf_storePayload 8 (by decide) x high hlo hhi]
  · intro x hx
    show GoValue.uint8 (unsignedOf 8 _) = _
    rw [unsignedOf_storePayload 8 x high hx]
  · intro x hx
    show GoValue.uint16 (unsignedOf 16 _) = _
    rw [unsignedOf_storePayload 16 x high hx]
  · intro x hx
    show GoValue.uint32 (unsignedOf 32 _) = _
    rw [unsignedOf_storePayload 32 x high hx]
  · intro x hlo hhi
    show GoValue.int64 (signedOf 64 _) = _
    rw [signedOf_storePayload 64 (by decide) x high hlo hhi]
  · intro x hx
    show GoValue.uint64 (unsignedOf 64 _) = _
    rw [unsignedOf_storePayload 64 x high hx]

/-- Witness of C1: the int16 value -2 stored under the high-order bits 12345, and
the uint8 value 200 stored under the same high-order bits, are read back. -/
theorem C1_fixed_width_round_trip_witness :
    VARIANT.Value exampleRuntime ⟨2, storePayload 16 (twoComplement 16 (-2)) 12345⟩ = .int16 (-2) ∧
    VARIANT.Value exampleRuntime ⟨17, storePayload 8 200 12345⟩ = .uint8 200 :=
  ⟨(C1_fixed_width_round_trip exampleRuntime 12345).1 (-2) (by decide) (by decide),
   (C1_fixed_width_round_trip exampleRuntime 12345).2.2.2.2.2.2.1 200 (by decide)⟩

/-- C2. Identity fallback: for every tag outside
0, 1, 2, 3, 4, 5, 7, 8, 10, 11, 16, 17, 18, 19, 20, 21 (tag 9 and every tag out of
the enumeration) and every payload, `Value` returns the tagged value itself. -/
theorem C2_identity_fallback (rt : Runtime) (va : VARIANT)
    (h : va.VT ∉ [0, 1, 2, 3, 4, 5, 7, 8, 10, 11, 16, 17, 18, 19, 20, 21]) :
    VARIANT.Value rt va = .variant va := by
  unfold VARIANT.Value
  split <;> simp_all

/-- Witness of C2: the tags 9 and 255 with the payload 77. -/
theorem C2_identity_fallback_witness :
    VARIANT.Value exampleRuntime ⟨9, 77⟩ = .variant ⟨9, 77⟩ ∧
    VARIANT.Value exampleRuntime ⟨255, 77⟩ = .variant ⟨255, 77⟩ :=
  ⟨C2_identity_fallback exampleRuntime ⟨9, 77⟩ (by decide),
   C2_identity_fallback exampleRuntime ⟨255, 77⟩ (by decide)⟩

/-- C7. Payload-independent tags: for every payload `Value` returns the empty
string for tag 0 and for tag 1, and exactly `#VT_ERROR` for tag 10. -/
theorem C7_payload_independent_tags (rt : Runtime) (payload : Int) :
    VARIANT.Value rt ⟨0, payload⟩ = .str "" ∧
    VARIANT.Value rt ⟨1, payload⟩ = .str "" ∧
    VARIANT.Value rt ⟨10, payload⟩ = .str "#VT_ERROR" :=
  ⟨rfl, rfl, rfl⟩

/-- C8. Stringifier fallback: `String` is total; on every value whose kind is not
supported it returns the empty string; so it does on what the decoder passes
through unchanged (tag 9 or a tag out of the enumeration); on a string it is
the identity. -/
theorem C8_stringifier_fallback (rt : Runtime) :
    (∀ val : GoValue, val.supported = false → StringOf rt val = "") ∧
    (∀ va : VARIANT, va.VT ∉ [0, 1, 2, 3, 4, 5, 7, 8, 10, 11, 16, 17, 18, 19, 20, 21] →
      StringOf rt (VARIANT.Value rt va) = "") ∧
    (∀ s : String, StringOf rt (.str s) = s) := by
  refine ⟨?_, ?_, ?_⟩
  · intro val h
    cases val <;> first | rfl | simp [GoValue.supported] at h
  · intro va h
    have hv : VARIANT.Value rt va = .variant va := by
      unfold VARIANT.Value
      split <;> simp_all
    rw [hv]
    rfl
  · intro s
    rfl

/-- Witness of C8: an unsupported kind, the passed-through tag 255, and a string. -/
theorem C8_stringifier_fallback_witness :
    StringOf exampleRuntime (.other "map[string]int") = "" ∧
    StringOf exampleRuntime (VARIANT.Value exampleRuntime ⟨255, 77⟩) = "" ∧
    StringOf exampleRuntime (.str "abc") = "abc" :=
  ⟨(C8_stringifier_fallback exampleRuntime).1 (.other "map[string]int") rfl,
   (C8_stringifier_fallback exampleRuntime).2.1 ⟨255, 77⟩ (by decide),
   (C8_stringifier_fallback exampleRuntime).2.2 "abc"⟩

/-- C3, at the failing input.  The payload `0x40D8F80000000000` is the float64
25568.0, the day 1969-12-31 00:00:00, for which `(d - 25569) * 86400` is the
whole number -86400; the second count the code formats is -86399, one second
later, and the text in the zone UTC is `1969-12-31 00:00:01`. -/
theorem C3_date_before_1970_off_by_one :
    Float64.ofBits 0x40D8F80000000000 = Float64.fin (25568 * 2 ^ 38) (-38) ∧
    dateSeconds (Float64.ofBits 0x40D8F80000000000) = -86399 ∧
    (25568 - 25569 : Int) * 86400 = -86400 ∧
    VARIANT.Value exampleRuntime ⟨7, 0x40D8F80000000000⟩ = .str "1969-12-31 00:00:01" := by
  set_option maxRecDepth 100000 in
  refine ⟨by decide, by decide, by decide, by decide⟩

/-- C4, as stated, fails: in the zone UTC the payload `0x40D8F86000000000`, the
float64 25569.5 = 0.5 + 70*365 + 19, does not decode to `1970-01-01 00:00:00`. -/
theorem C4_half_day_payload_is_not_midnight :
    Float64.ofBits 0x40D8F86000000000 = Float64.fin (51139 * 2 ^ 37) (-38) ∧
    VARIANT.Value exampleRuntime ⟨7, 0x40D8F86000000000⟩ ≠ .str "1970-01-01 00:00:00" := by
  set_option maxRecDepth 100000 in
  refine ⟨by decide, by decide⟩

/-- C4, amended.  The date payload 25569.5 (`0x40D8F86000000000`) decodes to the
unix second 43200 and the payload 25569 = 70*365 + 19 (`0x40D8F84000000000`) to
the unix second 0, each shown in the local zone; in the zone UTC the texts are
`1970-01-01 12:00:00` and `1970-01-01 00:00:00`. -/
theorem C4_date_zero_point (rt : Runtime) :
    VARIANT.Value rt ⟨7, 0x40D8F86000000000⟩ = .str (UnixFormat rt.Local 43200) ∧
    VARIANT.Value rt ⟨7, 0x40D8F84000000000⟩ = .str (UnixFormat rt.Local 0) ∧
    Float64.ofBits 0x40D8F84000000000 = Float64.fin (25569 * 2 ^ 38) (-38) ∧
    VARIANT.Value exampleRuntime ⟨7, 0x40D8F86000000000⟩ = .str "1970-01-01 12:00:00" ∧
    VARIANT.Value exampleRuntime ⟨7, 0x40D8F84000000000⟩ = .str "1970-01-01 00:00:00" := by
  have h1 : dateSeconds (Float64.ofBits (unsignedOf 64 0x40D8F86000000000)) = 43200 := by decide
  have h2 : dateSeconds (Float64.ofBits (unsignedOf 64 0x40D8F84000000000)) = 0 := by decide
  refine ⟨?_, ?_, by decide, ?_, ?_⟩
  · show GoValue.str (UnixFormat rt.Local (dateSeconds _)) = _
    rw [h1]
  · show GoValue.str (UnixFormat rt.Local (dateSeconds _)) = _
    rw [h2]
  · set_option maxRecDepth 100000 in decide
  · set_option maxRecDepth 100000 in decide

/-! ## Theorems: the property accessor -/

theorem answeredFrom_append (host : Host) (l1 l2 before : List Event) :
    answeredFrom host before (l1 ++ l2) =
      (answeredFrom host before l1 && answeredFrom host (before ++ l1) l2) := by
  induction l1 generalizing before with
  | nil => simp [answeredFrom]
  | cons ev rest ih =>
    rw [List.cons_append]
    simp only [answeredFrom]
    rw [ih]
    simp [Bool.and_assoc]

theorem answered_snoc (host : Host) (tr : List Event) (ev : Event)
    (h1 : answered host tr = true) (h2 : ev.answeredAfter host tr = true) :
    answered host (tr ++ [ev]) = true := by
  unfold answered at *
  rw [answeredFrom_append, h1]
  simp [answeredFrom, h2]

theorem answeredFrom_releases (host : Host) (hs : List Nat) (before : List Event) :
    answeredFrom host before (hs.map Event.release) = true := by
  induction hs generalizing before with
  | nil => rfl
  | cons h rest ih => simp [answeredFrom, Event.answeredAfter, ih]

theorem MustGetProperty_cases (host : Host) (fr : Frame) (name : String) :
    (∃ v, host.GetProperty fr.trace fr.idisp name = .ok v ∧
      MustGetProperty host fr name =
        ({ fr with trace := fr.trace ++ [Event.get fr.idisp name (.ok v)] }, some v)) ∨
    (∃ e, host.GetProperty fr.trace fr.idisp name = .failed e ∧
      MustGetProperty host fr name =
        ({ fr with trace := fr.trace ++ [Event.get fr.idisp name (.failed e)],
                   panicked := some e }, none)) := by
  unfold MustGetProperty
  cases h : host.GetProperty fr.trace fr.idisp name with
  | failed e => exact Or.inr ⟨e, rfl, rfl⟩
  | ok v => exact Or.inl ⟨v, rfl, rfl⟩

theorem okGets_snoc (tr : List Event) (h : Nat) (n : String) (v : VARIANT)
    (hok : ∀ ev ∈ tr, ev.isOkGet = true) :
    ∀ ev ∈ tr ++ [Event.get h n (.ok v)], ev.isOkGet = true := by
  intro ev hev
  rcases List.mem_append.mp hev with h1 | h1
  · exact hok ev h1
  · rw [List.mem_singleton.mp h1]
    rfl

theorem walk_shape (host : Host) (segs : List String) (fr : Frame)
    (hp : fr.panicked = none) (hok : ∀ ev ∈ fr.trace, ev.isOkGet = true)
    (ha : answered host fr.trace = true) :
    answered host (walk host segs fr).trace = true ∧
    (((walk host segs fr).panicked = none ∧
      (∀ ev ∈ (walk host segs fr).trace, ev.isOkGet = true) ∧
      (walk host segs fr).trace.length = fr.trace.length + segs.length) ∨
     (∃ e pre h n, (walk host segs fr).panicked = some e ∧
      (walk host segs fr).trace = pre ++ [Event.get h n (.failed e)] ∧
      (∀ ev ∈ pre, ev.isOkGet = true))) := by
  induction segs generalizing fr with
  | nil => exact ⟨ha, Or.inl ⟨hp, hok, rfl⟩⟩
  | cons a rest ih =>
    unfold walk
    rcases MustGetProperty_cases host fr a with ⟨v, hv, heq⟩ | ⟨e, he, heq⟩
    · rw [heq]
      have hstep := ih
        { fr with trace := fr.trace ++ [Event.get fr.idisp a (.ok v)],
                  idisp := host.ToIDispatch v,
                  deferred := host.ToIDispatch v :: fr.deferred }
        hp (okGets_snoc fr.trace fr.idisp a v hok)
        (answered_snoc host fr.trace _ ha (by simp [Event.answeredAfter, hv]))
      refine ⟨hstep.1, ?_⟩
      rcases hstep.2 with ⟨h1, h2, h3⟩ | h4
      · refine Or.inl ⟨h1, h2, ?_⟩
        rw [h3]
        simp only [List.length_append, List.length_cons, List.length_nil]
        omega
      · exact Or.inr h4
    · rw [heq]
      exact ⟨answered_snoc host fr.trace _ ha (by simp [Event.answeredAfter, he]),
        Or.inr ⟨e, fr.trace, fr.idisp, a, rfl, rfl, hok⟩⟩

theorem readKeys_shape (rt : Runtime) (host : Host) (keys : List String) (fr : Frame)
    (sl : List String)
    (hp : fr.panicked = none) (hok : ∀ ev ∈ fr.trace, ev.isOkGet = true)
    (ha : answered host fr.trace = true) :
    answered host (readKeys rt host keys fr sl).1.trace = true ∧
    (readKeys rt host keys fr sl).1.deferred = fr.deferred ∧
    (((readKeys rt host keys fr sl).1.panicked = none ∧
      ∃ vals : List VARIANT, vals.length = keys.length ∧
        (readKeys rt host keys fr sl).1.trace =
          fr.trace ++ List.zipWith (fun k v => Event.get fr.idisp k (.ok v)) keys vals ∧
        (readKeys rt host keys fr sl).2 =
          sl ++ List.zipWith (fun k v => k ++ ":" ++ StringOf rt (VARIANT.Value rt v)) keys vals) ∨
     (∃ e pre h n, (readKeys rt host keys fr sl).1.panicked = some e ∧
      (readKeys rt host keys fr sl).1.trace = pre ++ [Event.get h n (.failed e)] ∧
      (∀ ev ∈ pre, ev.isOkGet = true))) := by
  induction keys generalizing fr sl with
  | nil =>
    refine ⟨ha, rfl, Or.inl ⟨hp, [], rfl, ?_, ?_⟩⟩
    · simp [readKeys]
    · simp [readKeys]
  | cons key rest ih =>
    unfold readKeys
    rcases MustGetProperty_cases host fr key with ⟨v, hv, heq⟩ | ⟨e, he, heq⟩
    · rw [heq]
      have hstep := ih
        { fr with trace := fr.trace ++ [Event.get fr.idisp key (.ok v)] }
        (sl ++ [key ++ ":" ++ StringOf rt (VARIANT.Value rt v)])
        hp (okGets_snoc fr.trace fr.idisp key v hok)
        (answered_snoc host fr.trace _ ha (by simp [Event.answeredAfter, hv]))
      refine ⟨hstep.1, hstep.2.1, ?_⟩
      rcases hstep.2.2 with ⟨h1, vals, h2, h3, h4⟩ | h5
      · refine Or.inl ⟨h1, v :: vals, by simp [h2], ?_, ?_⟩
        · rw [h3]
          simp
        · rw [h4]
          simp
      · exact Or.inr h5
    · rw [heq]
      exact ⟨answered_snoc host fr.trace _ ha (by simp [Event.answeredAfter, he]), rfl,
        Or.inr ⟨e, fr.trace, fr.idisp, key, rfl, rfl, hok⟩⟩

theorem getBody_path (rt : Runtime) (host : Host) (idisp : Nat) (pre : List String)
    (argv : String) :
    getBody rt host idisp (some (pre ++ [argv])) =
      (match (walk host pre ⟨idisp, [], [], none⟩).panicked with
      | some _ => (walk host pre ⟨idisp, [], [], none⟩, GoValue.nil)
      | none =>
        if ',' ∈ argv.data then
          match readKeys rt host (Split argv ',') (walk host pre ⟨idisp, [], [], none⟩) [] with
          | (fr1, sl) =>
            match fr1.panicked with
            | some _ => (fr1, GoValue.nil)
            | none => (fr1, GoValue.str (Join sl ", "))
        else
          match MustGetProperty host (walk host pre ⟨idisp, [], [], none⟩) argv with
          | (fr1, none) => (fr1, GoValue.nil)
          | (fr1, some v) => (fr1, VARIANT.Value rt v)) := by
  simp [getBody]

theorem okGets_zipWith (h : Nat) (keys : List String) (vals : List VARIANT) :
    ∀ ev ∈ List.zipWith (fun k v => Event.get h k (.ok v)) keys vals, ev.isOkGet = true := by
  induction keys generalizing vals with
  | nil => simp
  | cons k ks ih =>
    cases vals with
    | nil => simp
    | cons v vs =>
      intro ev hev
      simp only [List.zipWith_cons_cons, List.mem_cons] at hev
      rcases hev with h1 | h1
      · rw [h1]; rfl
      · exact ih vs ev h1

theorem getBody_shape (rt : Runtime) (host : Host) (idisp : Nat) (args : Option (List String)) :
    answered host (getBody rt host idisp args).1.trace = true ∧
    (((getBody rt host idisp args).1.panicked = none ∧
        ∀ ev ∈ (getBody rt host idisp args).1.trace, ev.isOkGet = true) ∨
     (∃ e pre h n, (getBody rt host idisp args).1.panicked = some e ∧
        (getBody rt host idisp args).1.trace = pre ++ [Event.get h n (.failed e)] ∧
        (∀ ev ∈ pre, ev.isOkGet = true) ∧ (getBody rt host idisp args).2 = .nil) ∨
     (args = some [] ∧ (getBody rt host idisp args).1.trace = [] ∧
        (getBody rt host idisp args).1.deferred = [] ∧
        (getBody rt host idisp args).1.panicked ≠ none ∧
        (getBody rt host idisp args).2 = .nil)) := by
  have hstart : answered host [] = true := rfl
  cases args with
  | none =>
    simp only [getBody]
    rcases MustGetProperty_cases host ⟨idisp, [], [], none⟩ "Value" with
      ⟨v, hv, heq⟩ | ⟨e, he, heq⟩
    · rw [heq]
      refine ⟨answered_snoc host [] _ hstart (by simp [Event.answeredAfter, hv]),
        Or.inl ⟨rfl, okGets_snoc [] idisp "Value" v (by simp)⟩⟩
    · rw [heq]
      exact ⟨answered_snoc host [] _ hstart (by simp [Event.answeredAfter, he]),
        Or.inr (Or.inl ⟨e, [], idisp, "Value", rfl, rfl, by simp, rfl⟩)⟩
  | some l =>
    rcases List.eq_nil_or_concat l with rfl | ⟨pre, argv, rfl⟩
    · exact ⟨rfl, Or.inr (Or.inr ⟨rfl, rfl, rfl, by simp [getBody], rfl⟩)⟩
    · rw [List.concat_eq_append, getBody_path]
      have hw := walk_shape host pre ⟨idisp, [], [], none⟩ rfl (by simp) hstart
      generalize walk host pre ⟨idisp, [], [], none⟩ = fr at hw
      rcases hw with ⟨hwa, ⟨hp, hok, -⟩ | ⟨e, p, h, n, hp, htr, hpre⟩⟩
      · rw [hp]
        simp only
        split
        · have hr := readKeys_shape rt host (Split argv ',') fr [] hp hok hwa
          generalize readKeys rt host (Split argv ',') fr [] = res at hr
          obtain ⟨fr1, sl⟩ := res
          simp only at hr ⊢
          rcases hr with ⟨hra, -, ⟨hp1, vals, -, htr1, -⟩ | ⟨e, p, h, n, hp1, htr1, hpre⟩⟩
          · rw [hp1]
            refine ⟨hra, Or.inl ⟨hp1, ?_⟩⟩
            rw [htr1]
            intro ev hev
            rcases List.mem_append.mp hev with h1 | h1
            · exact hok ev h1
            · exact okGets_zipWith fr.idisp _ vals ev h1
          · rw [hp1]
            exact ⟨hra, Or.inr (Or.inl ⟨e, p, h, n, hp1, htr1, hpre, rfl⟩)⟩
        · rcases MustGetProperty_cases host fr argv with ⟨v, hv, heq⟩ | ⟨e, he, heq⟩
          · rw [heq]
            exact ⟨answered_snoc host fr.trace _ hwa (by simp [Event.answeredAfter, hv]),
              Or.inl ⟨hp, okGets_snoc fr.trace fr.idisp argv v hok⟩⟩
          · rw [heq]
            exact ⟨answered_snoc host fr.trace _ hwa (by simp [Event.answeredAfter, he]),
              Or.inr (Or.inl ⟨e, fr.trace, fr.idisp, argv, rfl, rfl, hok, rfl⟩)⟩
      · rw [hp]
        exact ⟨hwa, Or.inr (Or.inl ⟨e, p, h, n, hp, htr, hpre, rfl⟩)⟩

theorem releases_isRelease (hs : List Nat) : ∀ ev ∈ hs.map Event.release, ev.isRelease = true := by
  intro ev hev
  obtain ⟨h, -, rfl⟩ := List.mem_map.mp hev
  rfl

theorem GetProperty_shape (rt : Runtime) (host : Host) (idisp : Nat)
    (args : Option (List String)) :
    answered host (GetProperty rt host idisp args).trace = true ∧
    ∃ oks rels : List Event, (∀ ev ∈ oks, ev.isOkGet = true) ∧
      (∀ ev ∈ rels, ev.isRelease = true) ∧
      (((GetProperty rt host idisp args).trace = oks ++ rels ∧
          ((GetProperty rt host idisp args).err = none ∨ args = some [])) ∨
       (∃ h n e, (GetProperty rt host idisp args).trace =
            oks ++ Event.get h n (.failed e) :: rels ∧
          (GetProperty rt host idisp args).err = some ("@GetProperty: " ++ e) ∧
          (GetProperty rt host idisp args).ret = .nil)) := by
  have hb := getBody_shape rt host idisp args
  unfold GetProperty
  generalize getBody rt host idisp args = body at hb
  obtain ⟨fr, ret⟩ := body
  simp only at hb ⊢
  refine ⟨?_, ?_⟩
  · unfold answered at *
    rw [answeredFrom_append, hb.1, answeredFrom_releases]
    rfl
  · rcases hb.2 with ⟨hp, hok⟩ | ⟨e, pre, h, n, hp, htr, hpre, hret⟩ | ⟨ha, htr, hd, -, -⟩
    · exact ⟨fr.trace, fr.deferred.map Event.release, hok, releases_isRelease _,
        Or.inl ⟨rfl, Or.inl (by rw [hp]; rfl)⟩⟩
    · refine ⟨pre, fr.deferred.map Event.release, hpre, releases_isRelease _,
        Or.inr ⟨h, n, e, ?_, ?_, hret⟩⟩
      · rw [htr]; simp
      · rw [hp]; rfl
    · exact ⟨[], [], by simp, by simp, Or.inl ⟨by rw [htr, hd]; rfl, Or.inr ha⟩⟩

theorem failedGet_unique (oks rels pre post : List Event) (F G : Event)
    (hoks : ∀ ev ∈ oks, ev.isOkGet = true) (hrels : ∀ ev ∈ rels, ev.isRelease = true)
    (hG : G.isFailedGet = true)
    (h : pre ++ G :: post = oks ++ F :: rels) : pre = oks ∧ G = F ∧ post = rels := by
  have hGok : G.isOkGet = false := by
    cases G with
    | get h n r => cases r <;> simp_all [Event.isFailedGet, Event.isOkGet]
    | call h n a r => rfl
    | release h => rfl
  have hGrel : G.isRelease = false := by
    cases G with
    | get h n r => rfl
    | call h n a r => rfl
    | release h => simp [Event.isFailedGet] at hG
  rcases List.append_eq_append_iff.mp h with ⟨a, h1, h2⟩ | ⟨c, h1, h2⟩
  · cases a with
    | nil =>
      simp only [List.nil_append, List.cons.injEq] at h2
      exact ⟨by simpa using h1.symm, h2.1, h2.2⟩
    | cons x xs =>
      simp only [List.cons_append, List.cons.injEq] at h2
      have : G ∈ oks := by rw [h1, h2.1]; simp
      rw [hoks G this] at hGok
      exact absurd hGok (by simp)
  · cases c with
    | nil =>
      simp only [List.nil_append, List.cons.injEq] at h2
      exact ⟨by simpa using h1, h2.1.symm, h2.2.symm⟩
    | cons x xs =>
      simp only [List.cons_append, List.cons.injEq] at h2
      have : G ∈ rels := by rw [h2.2]; simp
      rw [hrels G this] at hGrel
      exact absurd hGrel (by simp)

theorem answeredFrom_at (host : Host) (before pre post : List Event) (ev : Event)
    (h : answeredFrom host before (pre ++ ev :: post) = true) :
    ev.answeredAfter host (before ++ pre) = true := by
  rw [answeredFrom_append] at h
  simp only [answeredFrom, Bool.and_eq_true] at h
  exact h.2.1

theorem Except_eq_none (info : String) (r : Option String) :
    Except info none r = none → r = none := by
  cases r with
  | none => intro _; rfl
  | some p => intro h; simp [Except] at h

theorem walk_pathTarget (host : Host) (segs : List String) (obj : Nat) (tr : List Event)
    (held : List Nat) :
    (∀ o t h, pathTarget host segs obj tr held = some (o, t, h) →
      walk host segs ⟨obj, tr, held, none⟩ = ⟨o, t, h, none⟩) ∧
    (pathTarget host segs obj tr held = none →
      (walk host segs ⟨obj, tr, held, none⟩).panicked ≠ none) := by
  induction segs generalizing obj tr held with
  | nil =>
    refine ⟨?_, ?_⟩
    · intro o t h hp
      simp only [pathTarget, Option.some.injEq, Prod.mk.injEq] at hp
      obtain ⟨rfl, rfl, rfl⟩ := hp
      rfl
    · intro hp
      simp [pathTarget] at hp
  | cons a rest ih =>
    unfold walk pathTarget MustGetProperty
    cases hg : host.GetProperty tr obj a with
    | failed e =>
      simp only [hg]
      exact ⟨fun o t h hp => by simp at hp, fun _ => by simp⟩
    | ok v =>
      simp only [hg]
      exact ih (host.ToIDispatch v) (tr ++ [Event.get obj a (.ok v)]) (host.ToIDispatch v :: held)

theorem readKeys_readValues (rt : Runtime) (host : Host) (keys : List String) (obj : Nat)
    (tr : List Event) (held : List Nat) (sl : List String) :
    (∀ vals reads, readValues host obj keys tr = some (vals, reads) →
      readKeys rt host keys ⟨obj, tr, held, none⟩ sl =
        (⟨obj, reads, held, none⟩,
          sl ++ List.zipWith (fun k v => k ++ ":" ++ StringOf rt (VARIANT.Value rt v)) keys vals) ∧
      vals.length = keys.length ∧
      reads = tr ++ List.zipWith (fun k v => Event.get obj k (.ok v)) keys vals) ∧
    (readValues host obj keys tr = none →
      (readKeys rt host keys ⟨obj, tr, held, none⟩ sl).1.panicked ≠ none) := by
  induction keys generalizing tr sl with
  | nil =>
    refine ⟨?_, ?_⟩
    · intro vals reads hr
      simp only [readValues, Option.some.injEq, Prod.mk.injEq] at hr
      obtain ⟨rfl, rfl⟩ := hr
      simp [readKeys]
    · intro hr
      simp [readValues] at hr
  | cons key rest ih =>
    unfold readKeys readValues MustGetProperty
    cases hg : host.GetProperty tr obj key with
    | failed e =>
      simp only [hg]
      exact ⟨fun vals reads hr => by simp at hr, fun _ => by simp⟩
    | ok v =>
      simp only [hg]
      have h := ih (tr ++ [Event.get obj key (.ok v)])
        (sl ++ [key ++ ":" ++ StringOf rt (VARIANT.Value rt v)])
      cases hrest : readValues host obj rest (tr ++ [Event.get obj key (.ok v)]) with
      | none =>
        simp only [hrest]
        exact ⟨fun vals reads hr => by simp at hr, fun _ => h.2 hrest⟩
      | some p =>
        obtain ⟨vs, tr1⟩ := p
        simp only [hrest]
        refine ⟨?_, fun hr => by simp at hr⟩
        intro vals reads hr
        simp only [Option.some.injEq, Prod.mk.injEq] at hr
        obtain ⟨rfl, rfl⟩ := hr
        obtain ⟨h1, h2, h3⟩ := h.1 vs tr1 hrest
        refine ⟨?_, by simp [h2], ?_⟩
        · rw [h1]
          simp
        · rw [h3]
          simp

/-- C5. Multi-property read.  Let the path `pre` lead from `idisp` to the object
`obj` (`pathTarget`), and let the reads of the names of `strings.Split(seg, ",")`
on `obj`, in the requested order, succeed with the values `vals` (`readValues`),
`seg` being a last segment that contains a comma.  Then `GetProperty` returns
no error and the string of the pieces `name + ":" + String(Value(v))`, one for
each name in the requested order, `v` being the value read for the name on
`obj`, joined with `", "`: as many pieces as names; what it did to the host is
these reads and then the release of the handles acquired on the way.
Conversely a nil error means that the path led to an object and that all these
reads succeeded.  The request `A,B` on the example object (A the int32 1, B
the text `x`) yields `A:1, B:x`. -/
theorem C5_multi_property_read (rt : Runtime) (host : Host) (idisp : Nat)
    (pre : List String) (seg : String) (hc : ',' ∈ seg.data) :
    (∀ (obj : Nat) (before reads : List Event) (held : List Nat) (vals : List VARIANT),
      pathTarget host pre idisp [] [] = some (obj, before, held) →
      readValues host obj (Split seg ',') before = some (vals, reads) →
        GetProperty rt host idisp (some (pre ++ [seg])) =
          { ret := .str (Join
              (List.zipWith (fun k v => k ++ ":" ++ StringOf rt (VARIANT.Value rt v))
                (Split seg ',') vals) ", ")
            err := none
            trace := reads ++ held.map Event.release } ∧
        vals.length = (Split seg ',').length ∧
        (List.zipWith (fun k v => k ++ ":" ++ StringOf rt (VARIANT.Value rt v))
          (Split seg ',') vals).length = (Split seg ',').length ∧
        reads = before ++
          List.zipWith (fun k v => Event.get obj k (.ok v)) (Split seg ',') vals) ∧
    ((GetProperty rt host idisp (some (pre ++ [seg]))).err = none →
      ∃ (obj : Nat) (before reads : List Event) (held : List Nat) (vals : List VARIANT),
        pathTarget host pre idisp [] [] = some (obj, before, held) ∧
        readValues host obj (Split seg ',') before = some (vals, reads)) ∧
    (GetProperty exampleRuntime exampleHost 1 (some ["A,B"])).ret = .str "A:1, B:x" := by
  have hw := walk_pathTarget host pre idisp [] []
  refine ⟨?_, ?_, by decide⟩
  · intro obj before reads held vals hpath hread
    have hwalk := hw.1 obj before held hpath
    obtain ⟨hkeys, hlen, hreads⟩ :=
      (readKeys_readValues rt host (Split seg ',') obj before held []).1 vals reads hread
    refine ⟨?_, hlen, by simp [hlen], hreads⟩
    unfold GetProperty
    rw [getBody_path, hwalk]
    simp only [if_pos hc, hkeys, List.nil_append]
    rfl
  · intro herr
    have hpan := Except_eq_none "GetProperty" _ herr
    rw [getBody_path] at hpan
    cases hpath : pathTarget host pre idisp [] [] with
    | none =>
      have hne := hw.2 hpath
      cases hwp : (walk host pre ⟨idisp, [], [], none⟩).panicked with
      | none => exact absurd hwp hne
      | some e =>
        rw [hwp] at hpan
        simp [hwp] at hpan
    | some p =>
      obtain ⟨obj, before, held⟩ := p
      have hwalk := hw.1 obj before held hpath
      rw [hwalk] at hpan
      simp only [if_pos hc] at hpan
      cases hread : readValues host obj (Split seg ',') before with
      | none =>
        have hne := (readKeys_readValues rt host (Split seg ',') obj before held []).2 hread
        generalize readKeys rt host (Split seg ',') ⟨obj, before, held, none⟩ [] = res
          at hne hpan
        obtain ⟨fr1, sl⟩ := res
        simp only at hne hpan
        cases hp1 : fr1.panicked with
        | none => exact absurd hp1 hne
        | some e => simp [hp1] at hpan
      | some q =>
        obtain ⟨vals, reads⟩ := q
        exact ⟨obj, before, reads, held, vals, rfl, hread⟩

/-- Witness of C5: on the host with two objects the path `Child` followed by the
request `A,B` reads the child (222 and 223), not the root (111 and 112). -/
theorem C5_multi_property_read_witness :
    ',' ∈ ("A,B" : String).data ∧
    pathTarget nestedHost ["Child"] 1 [] [] =
      some (2, [Event.get 1 "Child" (.ok ⟨9, 2⟩)], [2]) ∧
    readValues nestedHost 2 (Split "A,B" ',') [Event.get 1 "Child" (.ok ⟨9, 2⟩)] =
      some ([⟨3, 222⟩, ⟨3, 223⟩],
        [Event.get 1 "Child" (.ok ⟨9, 2⟩), Event.get 2 "A" (.ok ⟨3, 222⟩),
          Event.get 2 "B" (.ok ⟨3, 223⟩)]) ∧
    GetProperty exampleRuntime nestedHost 1 (some (["Child"] ++ ["A,B"])) =
      { ret := .str (Join
          (List.zipWith
            (fun k v => k ++ ":" ++ StringOf exampleRuntime (VARIANT.Value exampleRuntime v))
            (Split "A,B" ',') [⟨3, 222⟩, ⟨3, 223⟩]) ", ")
        err := none
        trace := [Event.get 1 "Child" (.ok ⟨9, 2⟩), Event.get 2 "A" (.ok ⟨3, 222⟩),
          Event.get 2 "B" (.ok ⟨3, 223⟩)] ++ [2].map Event.release } ∧
    Join
      (List.zipWith
        (fun k v => k ++ ":" ++ StringOf exampleRuntime (VARIANT.Value exampleRuntime v))
        (Split "A,B" ',') [⟨3, 222⟩, ⟨3, 223⟩]) ", " = "A:222, B:223" ∧
    (GetProperty exampleRuntime exampleHost 1 (some ["A,B"])).ret = .str "A:1, B:x" :=
  ⟨by decide, by decide, by decide,
    ((C5_multi_property_read exampleRuntime nestedHost 1 ["Child"] "A,B" (by decide)).1
      2 [Event.get 1 "Child" (.ok ⟨9, 2⟩)]
      [Event.get 1 "Child" (.ok ⟨9, 2⟩), Event.get 2 "A" (.ok ⟨3, 222⟩),
        Event.get 2 "B" (.ok ⟨3, 223⟩)]
      [2] [⟨3, 222⟩, ⟨3, 223⟩] (by decide) (by decide)).1,
    by decide,
    (C5_multi_property_read exampleRuntime nestedHost 1 ["Child"] "A,B" (by decide)).2.2⟩

/-- C6, at the failing input: a path that is an empty, non-nil list.  No property
is read, so no read fails, and yet the error is not nil: the index of the last
segment, -1, is out of range and `Except` turns the panic into the error.  (A
nil path reads the property `Value` instead.) -/
theorem C6_empty_path_error_without_failed_read :
    (GetProperty exampleRuntime exampleHost 1 (some [])).trace = [] ∧
    (∀ ev ∈ (GetProperty exampleRuntime exampleHost 1 (some [])).trace,
      ev.isFailedGet = false) ∧
    (GetProperty exampleRuntime exampleHost 1 (some [])).err =
      some "@GetProperty: runtime error: index out of range [-1]" ∧
    (GetProperty exampleRuntime exampleHost 1 (some [])).ret = .nil ∧
    (GetProperty exampleRuntime exampleHost 1 none).err = none := by
  refine ⟨by decide, by decide, by decide, by decide, by decide⟩

/-- Failure semantics of `GetProperty` on every other input.  For every handle and
path: a read that fails with the text `e` is recorded with the answer of the
host, makes `GetProperty` return the error `"@GetProperty: " ++ e` together
with a nil result, and is followed by releases only (no property is read after
it); when no read fails and the path is nil or has at least one segment, the
error is nil. -/
theorem GetProperty_failure_semantics (rt : Runtime) (host : Host) (idisp : Nat)
    (args : Option (List String)) :
    (∀ (before after : List Event) (h : Nat) (name e : String),
      (GetProperty rt host idisp args).trace = before ++ Event.get h name (.failed e) :: after →
        host.GetProperty before h name = .failed e ∧
        (GetProperty rt host idisp args).err = some ("@GetProperty: " ++ e) ∧
        (GetProperty rt host idisp args).ret = .nil ∧
        ∀ ev ∈ after, ev.isRelease = true) ∧
    ((∀ ev ∈ (GetProperty rt host idisp args).trace, ev.isFailedGet = false) →
      args ≠ some [] → (GetProperty rt host idisp args).err = none) := by
  obtain ⟨hans, oks, rels, hoks, hrels, hshape⟩ := GetProperty_shape rt host idisp args
  refine ⟨?_, ?_⟩
  · intro before after h name e htr
    have hrec : host.GetProperty before h name = .failed e := by
      have h1 := answeredFrom_at host [] before after (Event.get h name (.failed e))
        (by rw [← htr]; exact hans)
      simpa [Event.answeredAfter, eq_comm] using h1
    refine ⟨hrec, ?_⟩
    rcases hshape with ⟨htr2, -⟩ | ⟨h2, n2, e2, htr2, herr, hret⟩
    · have hmem : Event.get h name (.failed e) ∈ oks ++ rels := by
        rw [← htr2, htr]; simp
      rcases List.mem_append.mp hmem with h1 | h1
      · exact absurd (hoks _ h1) (by simp [Event.isOkGet])
      · exact absurd (hrels _ h1) (by simp [Event.isRelease])
    · rw [htr] at htr2
      obtain ⟨-, hG, hpost⟩ := failedGet_unique oks rels before after
        (Event.get h2 n2 (.failed e2)) (Event.get h name (.failed e)) hoks hrels rfl htr2
      simp only [Event.get.injEq, Reply.failed.injEq] at hG
      rw [hG.2.2, hpost]
      exact ⟨herr, hret, hrels⟩
  · intro hnone hargs
    rcases hshape with ⟨-, herr | hempty⟩ | ⟨h2, n2, e2, htr2, -, -⟩
    · exact herr
    · exact absurd hempty hargs
    · have := hnone (Event.get h2 n2 (.failed e2)) (by rw [htr2]; simp)
      simp [Event.isFailedGet] at this

/-- Instance of the failure semantics: on the example host the path `Next` with the request `A,C,B`
fails at `C` (`B` is not read), and the path `A` does not fail. -/
theorem GetProperty_failure_semantics_instance :
    (GetProperty exampleRuntime exampleHost 1 (some ["Next", "A,C,B"])).trace =
      [Event.get 1 "Next" (.ok ⟨9, 1⟩), Event.get 1 "A" (.ok ⟨3, 1⟩)] ++
        Event.get 1 "C" (.failed "unknown name") :: [Event.release 1] ∧
    (GetProperty exampleRuntime exampleHost 1 (some ["Next", "A,C,B"])).err =
      some ("@GetProperty: " ++ "unknown name") ∧
    (GetProperty exampleRuntime exampleHost 1 (some ["Next", "A,C,B"])).ret = .nil ∧
    (GetProperty exampleRuntime exampleHost 1 (some ["A"])).err = none :=
  ⟨by decide,
   ((GetProperty_failure_semantics exampleRuntime exampleHost 1 (some ["Next", "A,C,B"])).1
      [Event.get 1 "Next" (.ok ⟨9, 1⟩), Event.get 1 "A" (.ok ⟨3, 1⟩)] [Event.release 1] 1 "C"
      "unknown name" (by decide)).2.1,
   ((GetProperty_failure_semantics exampleRuntime exampleHost 1 (some ["Next", "A,C,B"])).1
      [Event.get 1 "Next" (.ok ⟨9, 1⟩), Event.get 1 "A" (.ok ⟨3, 1⟩)] [Event.release 1] 1 "C"
      "unknown name" (by decide)).2.2.1,
   (GetProperty_failure_semantics exampleRuntime exampleHost 1 (some ["A"])).2 (by decide) (by decide)⟩

/-! ## Theorems: saving workbooks -/

theorem HasSuffix_withFormatSuffix (fn ffs : String) :
    HasSuffix (withFormatSuffix fn ffs) ("." ++ ffs) = true := by
  unfold withFormatSuffix
  by_cases h : HasSuffix fn ("." ++ ffs) = true
  · rw [if_pos h]
    exact h
  · rw [if_neg h]
    unfold HasSuffix
    rw [List.isSuffixOf_iff_suffix, String.append_assoc, String.data_append]
    exact List.suffix_append _ _

theorem Initialize_FILEFORMAT_some (k : String) (n : Int)
    (h : Initialize.FILEFORMAT k = some n) :
    (k = "txt" ∧ n = -4158) ∨ (k = "csv" ∧ n = 6) ∨ (k = "html" ∧ n = 44) := by
  unfold Initialize at h
  simp only at h
  split at h
  · exact Or.inl ⟨by assumption, by simpa using h.symm⟩
  · split at h
    · exact Or.inr (Or.inl ⟨by assumption, by simpa using h.symm⟩)
    · split at h
      · exact Or.inr (Or.inr ⟨by assumption, by simpa using h.symm⟩)
      · simp at h

theorem WorkBook_SaveAs_sent (rt : Runtime) (host : Host) (wb : WorkBook) (tr : List Event)
    (args args1 : List GoValue) (h : WorkBook.normalize rt wb args = (args1, none)) :
    (WorkBook.SaveAs rt host wb tr args).args = args1 ∧
    (WorkBook.SaveAs rt host wb tr args).trace =
      tr ++ [Event.call wb.Idisp "SaveAs" args1 (host.CallMethod tr wb.Idisp "SaveAs" args1)] := by
  unfold WorkBook.SaveAs
  rw [h]
  simp only
  cases hc : host.CallMethod tr wb.Idisp "SaveAs" args1 <;> exact ⟨rfl, rfl⟩

/-- C10. Format normalisation of `WorkBook.SaveAs`, for a workbook holding the
table of `Initialize`.  (1) When the second argument is a string `f` whose
lower-case form is a key of the table with code `n`, the host is sent the file
name `withFormatSuffix fn (lower f)`, which ends with `"." + lower f`, is `fn`
when `fn` had that suffix and `fn + "." + lower f` otherwise, and is left as it
is by a second normalisation; the second argument sent is `n`, the code of the
key (txt -4158, csv 6, html 44).  (2) When `lower f` is not a key the host is
sent nil as second argument and the first argument unchanged.  (3) With fewer
than two arguments, or a second argument that is not a string, the host is
sent the arguments unchanged. -/
theorem C10_format_normalisation (rt : Runtime) (host : Host) (wb : WorkBook)
    (hwb : wb.mso = Initialize) (tr : List Event) :
    (∀ (fn f : String) (rest : List GoValue) (n : Int),
      Initialize.FILEFORMAT (rt.ToLower f) = some n →
        (WorkBook.SaveAs rt host wb tr (.str fn :: .str f :: rest)).trace =
          tr ++ [Event.call wb.Idisp "SaveAs"
            (.str (withFormatSuffix fn (rt.ToLower f)) :: .int n :: rest)
            (host.CallMethod tr wb.Idisp "SaveAs"
              (.str (withFormatSuffix fn (rt.ToLower f)) :: .int n :: rest))] ∧
        HasSuffix (withFormatSuffix fn (rt.ToLower f)) ("." ++ rt.ToLower f) = true ∧
        (HasSuffix fn ("." ++ rt.ToLower f) = true → withFormatSuffix fn (rt.ToLower f) = fn) ∧
        (HasSuffix fn ("." ++ rt.ToLower f) = false →
          withFormatSuffix fn (rt.ToLower f) = fn ++ "." ++ rt.ToLower f) ∧
        withFormatSuffix (withFormatSuffix fn (rt.ToLower f)) (rt.ToLower f) =
          withFormatSuffix fn (rt.ToLower f) ∧
        ((rt.ToLower f = "txt" ∧ n = -4158) ∨ (rt.ToLower f = "csv" ∧ n = 6) ∨
          (rt.ToLower f = "html" ∧ n = 44))) ∧
    (∀ (a0 : GoValue) (f : String) (rest : List GoValue),
      Initialize.FILEFORMAT (rt.ToLower f) = none →
        (WorkBook.SaveAs rt host wb tr (a0 :: .str f :: rest)).trace =
          tr ++ [Event.call wb.Idisp "SaveAs" (a0 :: .nil :: rest)
            (host.CallMethod tr wb.Idisp "SaveAs" (a0 :: .nil :: rest))]) ∧
    (∀ args : List GoValue,
      (args.length < 2 ∨ ∃ a0 a1 rest, args = a0 :: a1 :: rest ∧ ∀ f, a1 ≠ .str f) →
        (WorkBook.SaveAs rt host wb tr args).trace =
          tr ++ [Event.call wb.Idisp "SaveAs" args
            (host.CallMethod tr wb.Idisp "SaveAs" args)]) := by
  refine ⟨?_, ?_, ?_⟩
  · intro fn f rest n hn
    have hnorm : WorkBook.normalize rt wb (.str fn :: .str f :: rest) =
        (.str (withFormatSuffix fn (rt.ToLower f)) :: .int n :: rest, none) := by
      simp only [WorkBook.normalize, hwb, hn, withFormatSuffix]
      split <;> rfl
    refine ⟨(WorkBook_SaveAs_sent rt host wb tr _ _ hnorm).2,
      HasSuffix_withFormatSuffix fn _, ?_, ?_, ?_, Initialize_FILEFORMAT_some _ n hn⟩
    · intro h
      unfold withFormatSuffix
      rw [if_pos h]
    · intro h
      unfold withFormatSuffix
      rw [if_neg (by simp [h])]
    · have h := HasSuffix_withFormatSuffix fn (rt.ToLower f)
      generalize withFormatSuffix fn (rt.ToLower f) = g at h ⊢
      unfold withFormatSuffix
      rw [if_pos h]
  · intro a0 f rest hn
    have hnorm : WorkBook.normalize rt wb (a0 :: .str f :: rest) =
        (a0 :: .nil :: rest, none) := by
      simp only [WorkBook.normalize, hwb, hn]
    exact (WorkBook_SaveAs_sent rt host wb tr _ _ hnorm).2
  · intro args h
    have hnorm : WorkBook.normalize rt wb args = (args, none) := by
      rcases h with h | ⟨a0, a1, rest, rfl, h1⟩
      · match args, h with
        | [], _ => rfl
        | [_], _ => rfl
        | _ :: _ :: _, h =>
          simp only [List.length_cons] at h
          omega
      · cases a1 <;> first | rfl | exact absurd rfl (h1 _)
    exact (WorkBook_SaveAs_sent rt host wb tr _ _ hnorm).2

/-- Witness of C10: the name `book` saved with the format `CSV`, then the name
`a.txt` with the format `xls` (not in the table), then a single argument. -/
theorem C10_format_normalisation_witness :
    (WorkBook.SaveAs exampleRuntime exampleHost ⟨1, Initialize⟩ []
        [.str "book", .str "CSV"]).trace =
      [] ++ [Event.call 1 "SaveAs" [.str (withFormatSuffix "book" "csv"), .int 6] (.ok ⟨0, 0⟩)] ∧
    withFormatSuffix "book" "csv" = "book.csv" ∧
    (WorkBook.SaveAs exampleRuntime exampleHost ⟨1, Initialize⟩ []
        [.str "a.txt", .str "xls"]).trace =
      [] ++ [Event.call 1 "SaveAs" [.str "a.txt", .nil] (.ok ⟨0, 0⟩)] ∧
    (WorkBook.SaveAs exampleRuntime exampleHost ⟨1, Initialize⟩ [] [.str "a.txt"]).trace =
      [] ++ [Event.call 1 "SaveAs" [.str "a.txt"] (.ok ⟨0, 0⟩)] :=
  ⟨((C10_format_normalisation exampleRuntime exampleHost ⟨1, Initialize⟩ rfl []).1
      "book" "CSV" [] 6 (by decide)).1,
   by decide,
   (C10_format_normalisation exampleRuntime exampleHost ⟨1, Initialize⟩ rfl []).2.1
      (.str "a.txt") "xls" [] (by decide),
   (C10_format_normalisation exampleRuntime exampleHost ⟨1, Initialize⟩ rfl []).2.2
      [.str "a.txt"] (Or.inl (by decide))⟩

theorem digitChar_toNat (k : Nat) (hk : k < 10) : (Nat.digitChar k).toNat - 48 = k := by
  interval_cases k <;> rfl

theorem decimalValue_toDigitsCore (fuel n : Nat) (ds : List Char) (h : n < fuel) :
    decimalValue (Nat.toDigitsCore 10 fuel n ds) =
      ds.foldl (fun a c => 10 * a + (c.toNat - 48)) n := by
  induction fuel generalizing n ds with
  | zero => omega
  | succ fuel ih =>
    unfold Nat.toDigitsCore
    simp only
    split
    · rename_i h0
      have hn : n < 10 := by omega
      unfold decimalValue
      rw [List.foldl_cons, Nat.mod_eq_of_lt hn, digitChar_toNat n hn]
      simp
    · rename_i h0
      rw [ih (n / 10) _ (by omega), List.foldl_cons,
        digitChar_toNat (n % 10) (Nat.mod_lt n (by decide))]
      congr 1
      omega

theorem decimalValue_repr (n : Nat) : decimalValue (Nat.repr n).data = n := by
  unfold Nat.repr Nat.toDigits
  rw [show (List.asString (Nat.toDigitsCore 10 (n + 1) n [])).data =
    Nat.toDigitsCore 10 (n + 1) n [] from rfl]
  rw [decimalValue_toDigitsCore (n + 1) n [] (by omega)]
  rfl

theorem Itoa_natCast_injective (i j : Nat) (h : Itoa (i : Int) = Itoa (j : Int)) : i = j := by
  unfold Itoa FormatInt at h
  rw [if_neg (by omega), if_neg (by omega)] at h
  simp only [Int.natAbs_ofNat] at h
  have := congrArg (fun s => decimalValue s.data) h
  simpa [decimalValue_repr] using this

theorem extScan_suffix (r acc : List Char) :
    ∃ k, extScan r acc = [] ∨ extScan r acc = (r.take k).reverse ++ acc := by
  induction r generalizing acc with
  | nil => exact ⟨0, Or.inl rfl⟩
  | cons c rest ih =>
    unfold extScan
    split
    · exact ⟨0, Or.inl rfl⟩
    · split
      · exact ⟨1, Or.inr (by simp)⟩
      · obtain ⟨k, hk⟩ := ih (c :: acc)
        refine ⟨k + 1, ?_⟩
        rcases hk with hk | hk
        · exact Or.inl hk
        · exact Or.inr (by rw [hk]; simp)

theorem Ext_suffix (full : String) : ∃ a, full.data = a ++ (Ext full).data := by
  obtain ⟨k, hk⟩ := extScan_suffix full.data.reverse []
  unfold Ext
  rcases hk with hk | hk
  · exact ⟨full.data, by rw [hk]; simp⟩
  · refine ⟨(full.data.reverse.drop k).reverse, ?_⟩
    rw [hk, List.append_nil, ← List.reverse_append, List.take_append_drop, List.reverse_reverse]

theorem replaceFirstChars_infix (old : List Char) (s : List Char)
    (h : ∃ a b, s = a ++ old ++ b) :
    ∃ p q, s = p ++ old ++ q ∧ ∀ new, replaceFirstChars old new s = p ++ new ++ q := by
  induction s with
  | nil =>
    obtain ⟨a, b, hab⟩ := h
    have hold : old = [] := by
      have := congrArg List.length hab
      simp at this
      exact List.length_eq_zero.mp (by omega)
    refine ⟨[], [], by simp [hold], ?_⟩
    intro new
    simp [replaceFirstChars, hold]
  | cons c cs ih =>
    by_cases hp : old.isPrefixOf (c :: cs) = true
    · refine ⟨[], (c :: cs).drop old.length, ?_, ?_⟩
      · rw [List.isPrefixOf_iff_prefix, List.prefix_iff_eq_append] at hp
        simpa using hp.symm
      · intro new
        unfold replaceFirstChars
        rw [if_pos hp]
        simp
    · obtain ⟨a, b, hab⟩ := h
      cases a with
      | nil =>
        exfalso
        apply hp
        rw [List.isPrefixOf_iff_prefix, hab]
        simp
      | cons x a1 =>
        simp only [List.cons_append, List.cons.injEq] at hab
        obtain ⟨p, q, hpq, hrep⟩ := ih ⟨a1, b, hab.2⟩
        refine ⟨c :: p, q, by simp [hpq], ?_⟩
        intro new
        unfold replaceFirstChars
        rw [if_neg hp, hrep new]
        simp

theorem numberedPath_shape (full : String) :
    ∃ p q : List Char, full.data = p ++ (Ext full).data ++ q ∧
      ∀ i : Nat, (numberedPath full i).data =
        p ++ ('_' :: (Itoa (i : Int)).data ++ (Ext full).data) ++ q := by
  obtain ⟨a, ha⟩ := Ext_suffix full
  obtain ⟨p, q, hpq, hrep⟩ := replaceFirstChars_infix (Ext full).data full.data
    ⟨a, [], by simpa using ha⟩
  refine ⟨p, q, hpq, ?_⟩
  intro i
  unfold numberedPath ReplaceFirst
  rw [hrep]
  simp [String.data_append]

theorem numberedPath_ne_full (full : String) (i : Nat) : numberedPath full i ≠ full := by
  obtain ⟨p, q, hfull, hnum⟩ := numberedPath_shape full
  intro h
  have h1 := congrArg (fun s => s.data.length) h
  simp only [hnum i] at h1
  rw [hfull] at h1
  simp at h1
  omega

theorem numberedPath_injective (full : String) (i j : Nat)
    (h : numberedPath full i = numberedPath full j) : i = j := by
  obtain ⟨p, q, -, hnum⟩ := numberedPath_shape full
  have h1 := congrArg String.data h
  rw [hnum i, hnum j] at h1
  simp only [List.append_assoc, List.cons_append, List.append_cancel_left_eq,
    List.cons.injEq, true_and, List.append_cancel_right_eq] at h1
  exact Itoa_natCast_injective i j (String.ext h1)

theorem normalize_length (rt : Runtime) (wb : WorkBook) (args : List GoValue) :
    (WorkBook.normalize rt wb args).1.length = args.length := by
  match args with
  | [] => rfl
  | [_] => rfl
  | a0 :: a1 :: rest =>
    cases a1 <;> try rfl
    simp only [WorkBook.normalize]
    cases wb.mso.FILEFORMAT (rt.ToLower _) with
    | none => simp
    | some n => cases a0 <;> simp

theorem WorkBook_SaveAs_args_length (rt : Runtime) (host : Host) (wb : WorkBook)
    (tr : List Event) (args : List GoValue) :
    (WorkBook.SaveAs rt host wb tr args).args.length = args.length := by
  have h := normalize_length rt wb args
  unfold WorkBook.SaveAs
  generalize WorkBook.normalize rt wb args = res at h
  obtain ⟨args1, p⟩ := res
  cases p with
  | some t => exact h
  | none =>
    simp only
    cases host.CallMethod tr wb.Idisp "SaveAs" args1 <;> exact h

theorem saveNumbered_spec (rt : Runtime) (host : Host) (full ext : String)
    (wbs : List WorkBook) (i : Nat) (args : List GoValue) (tr : List Event)
    (hargs : 0 < args.length) :
    (saveNumbered rt host full ext i wbs args tr).1.map (fun r => r.passed.head?) =
      (List.range' i wbs.length).map
        (fun k : Nat => some (GoValue.str (ReplaceFirst full ext ("_" ++ Itoa (k : Int) ++ ext)))) := by
  induction wbs generalizing i args tr with
  | nil => rfl
  | cons wb rest ih =>
    unfold saveNumbered
    simp only [List.map_cons, List.length_cons, List.range'_succ]
    congr 1
    · cases args with
      | nil => simp at hargs
      | cons a as => rfl
    · apply ih
      rw [WorkBook_SaveAs_args_length]
      simpa using hargs

theorem saveEach_spec (rt : Runtime) (host : Host) (wbs : List WorkBook)
    (args : List GoValue) (tr : List Event) (h : wbs.length < 2) :
    (saveEach rt host wbs args tr).1.map SaveRecord.passed = wbs.map (fun _ => args) := by
  match wbs, h with
  | [], _ => rfl
  | [_], _ => rfl
  | _ :: _ :: _, h =>
    simp only [List.length_cons] at h
    omega

theorem WorkBook_SaveAs_of_normalize (rt : Runtime) (host : Host) (wb : WorkBook)
    (tr : List Event) (args args1 : List GoValue)
    (h : WorkBook.normalize rt wb args = (args1, none)) :
    WorkBook.SaveAs rt host wb tr args =
      ⟨errOfReply (host.CallMethod tr wb.Idisp "SaveAs" args1), args1,
        tr ++ [Event.call wb.Idisp "SaveAs" args1 (host.CallMethod tr wb.Idisp "SaveAs" args1)]⟩ := by
  unfold WorkBook.SaveAs
  rw [h]
  simp only
  cases hc : host.CallMethod tr wb.Idisp "SaveAs" args1 <;> rfl

theorem normalize_first (rt : Runtime) (wb : WorkBook) (fn : String) (r : List GoValue) :
    ∃ (name : String) (sfx : List Char) (t : List GoValue),
      WorkBook.normalize rt wb (.str fn :: r) = (.str name :: t, none) ∧
      name.data = fn.data ++ sfx ∧
      ∀ (wb1 : WorkBook) (fn1 : String),
        WorkBook.normalize rt wb1 (.str fn1 :: t) = (.str fn1 :: t, none) := by
  cases r with
  | nil => exact ⟨fn, [], [], rfl, by simp, fun _ _ => rfl⟩
  | cons a1 r1 =>
    cases a1 with
    | str f =>
      simp only [WorkBook.normalize]
      cases hf : wb.mso.FILEFORMAT (rt.ToLower f) with
      | none => exact ⟨fn, [], .nil :: r1, rfl, by simp, fun _ _ => rfl⟩
      | some n =>
        simp only
        by_cases hs : HasSuffix fn ("." ++ rt.ToLower f) = true
        · rw [if_pos hs]
          exact ⟨fn, [], .int n :: r1, rfl, by simp, fun _ _ => rfl⟩
        · rw [if_neg hs]
          exact ⟨fn ++ "." ++ rt.ToLower f, ("." ++ rt.ToLower f).data, .int n :: r1, rfl,
            by simp [String.data_append], fun _ _ => rfl⟩
    | _ => exact ⟨fn, [], _ :: r1, rfl, by simp, fun _ _ => rfl⟩

theorem saveNumbered_stable (rt : Runtime) (host : Host) (full ext : String)
    (t : List GoValue)
    (hst : ∀ (wb : WorkBook) (fn : String),
      WorkBook.normalize rt wb (.str fn :: t) = (.str fn :: t, none))
    (wbs : List WorkBook) (i : Nat) (a0 : GoValue) (tr : List Event) :
    ((saveNumbered rt host full ext i wbs (a0 :: t) tr).1.map SaveRecord.err,
      (saveNumbered rt host full ext i wbs (a0 :: t) tr).2) =
    hostSaveAs host
      (List.zip (wbs.map WorkBook.Idisp)
        ((List.range' i wbs.length).map
          (fun k : Nat =>
            GoValue.str (ReplaceFirst full ext ("_" ++ Itoa (k : Int) ++ ext)) :: t))) tr := by
  induction wbs generalizing i a0 tr with
  | nil => rfl
  | cons wb rest ih =>
    unfold saveNumbered
    simp only [List.set_cons_zero, List.map_cons, List.length_cons, List.range'_succ,
      List.zip_cons_cons, hostSaveAs]
    rw [WorkBook_SaveAs_of_normalize rt host wb tr _ _ (hst wb _)]
    simp only
    have h := ih (i + 1) (GoValue.str (ReplaceFirst full ext ("_" ++ Itoa (i : Int) ++ ext)))
      (tr ++ [Event.call wb.Idisp "SaveAs"
        (GoValue.str (ReplaceFirst full ext ("_" ++ Itoa (i : Int) ++ ext)) :: t)
        (host.CallMethod tr wb.Idisp "SaveAs"
          (GoValue.str (ReplaceFirst full ext ("_" ++ Itoa (i : Int) ++ ext)) :: t))])
    rw [Prod.mk.injEq] at h ⊢
    refine ⟨?_, ?_⟩
    · rw [h.1]
      rfl
    · rw [h.2]
      rfl

theorem toDigitsCore_head (fuel n : Nat) (ds : List Char) (h0 : 0 < n) (h : n < fuel) :
    ∃ c t, Nat.toDigitsCore 10 fuel n ds = c :: t ∧ c ≠ '0' := by
  induction fuel generalizing n ds with
  | zero => omega
  | succ fuel ih =>
    unfold Nat.toDigitsCore
    simp only
    split
    · rename_i hz
      have hn : n < 10 := by omega
      refine ⟨Nat.digitChar (n % 10), ds, rfl, ?_⟩
      rw [Nat.mod_eq_of_lt hn]
      interval_cases n <;> decide
    · rename_i hz
      exact ih (n / 10) _ (by omega) (by omega)

theorem Itoa_head (j : Nat) (hj : 0 < j) :
    ∃ c t, (Itoa (j : Int)).data = c :: t ∧ c ≠ '0' := by
  unfold Itoa FormatInt
  rw [if_neg (by omega)]
  simp only [Int.natAbs_ofNat]
  exact toDigitsCore_head (j + 1) j [] hj (by omega)

theorem first_name_ne (full name : String) (sfx : List Char)
    (h : name.data = (numberedPath full 0).data ++ sfx) :
    name ≠ full ∧ ∀ j : Nat, 0 < j → name ≠ numberedPath full j := by
  obtain ⟨p, q, hfull, hnum⟩ := numberedPath_shape full
  refine ⟨?_, ?_⟩
  · intro he
    have h1 := congrArg (fun s => s.data.length) he
    simp only [h, hnum 0] at h1
    rw [hfull] at h1
    simp at h1
    omega
  · intro j hj he
    have h1 := congrArg String.data he
    rw [h, hnum 0, hnum j] at h1
    obtain ⟨c, t, hc, hne⟩ := Itoa_head j hj
    have h0 : (Itoa ((0 : Nat) : Int)).data = ['0'] := by decide
    rw [hc, h0] at h1
    simp only [List.append_assoc, List.cons_append, List.append_cancel_left_eq,
      List.cons.injEq, true_and, List.nil_append] at h1
    exact hne h1.1.symm

theorem sentArgs_names (rt : Runtime) (wbs : List WorkBook) (full : String)
    (rest : List GoValue) :
    (sentArgs rt wbs full rest).length = wbs.length ∧
    ∃ names : List String,
      (sentArgs rt wbs full rest).map List.head? = names.map (fun s => some (GoValue.str s)) ∧
      names.Nodup ∧ full ∉ names := by
  cases wbs with
  | nil => exact ⟨rfl, [], rfl, List.nodup_nil, by simp⟩
  | cons wb more =>
    obtain ⟨name, sfx, t, hnorm, hname, -⟩ := normalize_first rt wb (numberedPath full 0) rest
    obtain ⟨hne, hnej⟩ := first_name_ne full name sfx hname
    refine ⟨by simp [sentArgs], name :: (List.range' 1 more.length).map (numberedPath full),
      ?_, ?_, ?_⟩
    · simp [sentArgs, hnorm, Function.comp_def]
    · rw [List.nodup_cons]
      refine ⟨?_, ?_⟩
      · intro hmem
        obtain ⟨j, hj, hje⟩ := List.mem_map.mp hmem
        rw [List.mem_range'_1] at hj
        exact hnej j (by omega) hje.symm
      · exact (List.nodup_range' 1 more.length).map
          (fun i j h => numberedPath_injective full i j h)
    · intro hmem
      rcases List.mem_cons.mp hmem with h1 | h1
      · exact hne h1.symm
      · obtain ⟨j, -, hje⟩ := List.mem_map.mp h1
        exact numberedPath_ne_full full j hje

theorem saveNumbered_sent (rt : Runtime) (host : Host) (full : String)
    (wbs : List WorkBook) (rest : List GoValue) (tr : List Event) :
    ((saveNumbered rt host full (Ext full) 0 wbs (.str full :: rest) tr).1.map SaveRecord.err,
      (saveNumbered rt host full (Ext full) 0 wbs (.str full :: rest) tr).2) =
    hostSaveAs host (List.zip (wbs.map WorkBook.Idisp) (sentArgs rt wbs full rest)) tr := by
  cases wbs with
  | nil => rfl
  | cons wb more =>
    obtain ⟨name, sfx, t, hnorm, -, hst⟩ := normalize_first rt wb (numberedPath full 0) rest
    have hnorm1 : WorkBook.normalize rt wb
        (GoValue.str (ReplaceFirst full (Ext full) ("_" ++ Itoa ((0 : Nat) : Int) ++ Ext full))
          :: rest) = (.str name :: t, none) := hnorm
    unfold saveNumbered
    simp only [List.set_cons_zero, sentArgs, hnorm, List.map_cons, List.zip_cons_cons,
      hostSaveAs, List.tail_cons]
    rw [WorkBook_SaveAs_of_normalize rt host wb tr _ _ hnorm1]
    simp only
    have h := saveNumbered_stable rt host full (Ext full) t hst more 1 (.str name)
      (tr ++ [Event.call wb.Idisp "SaveAs" (.str name :: t)
        (host.CallMethod tr wb.Idisp "SaveAs" (.str name :: t))])
    rw [Prod.mk.injEq] at h ⊢
    refine ⟨?_, ?_⟩
    · rw [h.1]
      rfl
    · rw [h.2]
      rfl

theorem saveEach_calls (rt : Runtime) (host : Host) (wbs : List WorkBook)
    (args : List GoValue) (tr : List Event) (h : wbs.length < 2) :
    errsOf (saveEach rt host wbs args tr).1 =
      wbs.map (fun wb => (WorkBook.SaveAs rt host wb tr args).err) ∧
    (saveEach rt host wbs args tr).2 =
      wbs.foldl (fun t wb => (WorkBook.SaveAs rt host wb t args).trace) tr := by
  match wbs, h with
  | [], _ => exact ⟨rfl, rfl⟩
  | [_], _ => exact ⟨rfl, rfl⟩
  | _ :: _ :: _, h =>
    simp only [List.length_cons] at h
    omega

/-- C9. `WorkBooks.SaveAs` gives every workbook its own file.  For a collection of
`n >= 2` workbooks and a first argument that is the string `full`, the method
returns, its error list has exactly `n` entries, and the path passed to the
`SaveAs` of the workbook of index `i` is `full` with the first occurrence of
`filepath.Ext(full)` replaced by `"_" + Itoa(i) + ext` (`numberedPath full i`);
these paths are pairwise distinct and each differs from `full`.  The calls are
made: the host is sent `SaveAs` once on each workbook, in order, with the
argument lists `sentArgs` (the numbered path, normalised by the format for
the first workbook), the errors returned are those of these calls, and the
file names sent are again pairwise distinct and differ from `full`.  For
`n < 2` the arguments are passed unchanged to the `SaveAs` of each workbook,
whose error and events are what is returned. -/
theorem C9_each_workbook_its_own_file (rt : Runtime) (host : Host) (wbs : List WorkBook)
    (tr : List Event) :
    (2 ≤ wbs.length → ∀ (full : String) (rest : List GoValue),
      ∃ recs tr1, WorkBooks.SaveAs rt host wbs tr (.str full :: rest) = some (recs, tr1) ∧
        (errsOf recs).length = wbs.length ∧
        recs.map (fun r => r.passed.head?) =
          (List.range wbs.length).map (fun i => some (GoValue.str (numberedPath full i))) ∧
        (∀ i : Nat, numberedPath full i ≠ full) ∧
        (∀ i j : Nat, i ≠ j → numberedPath full i ≠ numberedPath full j) ∧
        (errsOf recs, tr1) =
          hostSaveAs host (List.zip (wbs.map WorkBook.Idisp) (sentArgs rt wbs full rest)) tr ∧
        (sentArgs rt wbs full rest).length = wbs.length ∧
        ∃ names : List String,
          (sentArgs rt wbs full rest).map List.head? =
            names.map (fun s => some (GoValue.str s)) ∧
          names.Nodup ∧ full ∉ names) ∧
    (wbs.length < 2 → ∀ args : List GoValue,
      ∃ recs tr1, WorkBooks.SaveAs rt host wbs tr args = some (recs, tr1) ∧
        (errsOf recs).length = wbs.length ∧
        recs.map SaveRecord.passed = wbs.map (fun _ => args) ∧
        errsOf recs = wbs.map (fun wb => (WorkBook.SaveAs rt host wb tr args).err) ∧
        tr1 = wbs.foldl (fun t wb => (WorkBook.SaveAs rt host wb t args).trace) tr) := by
  refine ⟨?_, ?_⟩
  · intro hn full rest
    have hspec := saveNumbered_spec rt host full (Ext full) wbs 0 (.str full :: rest) tr
      (by simp)
    have hsent := saveNumbered_sent rt host full wbs rest tr
    have hnames := sentArgs_names rt wbs full rest
    refine ⟨(saveNumbered rt host full (Ext full) 0 wbs (.str full :: rest) tr).1,
      (saveNumbered rt host full (Ext full) 0 wbs (.str full :: rest) tr).2,
      ?_, ?_, ?_, numberedPath_ne_full full,
      fun i j hij h => hij (numberedPath_injective full i j h), hsent, hnames.1, hnames.2⟩
    · unfold WorkBooks.SaveAs
      rw [if_neg (by omega)]
    · have := congrArg List.length hspec
      simpa [errsOf] using this
    · rw [hspec, List.range_eq_range']
      rfl
  · intro hn args
    have hspec := saveEach_spec rt host wbs args tr hn
    have hcalls := saveEach_calls rt host wbs args tr hn
    refine ⟨(saveEach rt host wbs args tr).1, (saveEach rt host wbs args tr).2, ?_, ?_, hspec,
      hcalls.1, hcalls.2⟩
    · unfold WorkBooks.SaveAs
      rw [if_pos hn]
    · have := congrArg List.length hspec
      simpa [errsOf] using this

/-- Witness of C9: three workbooks (the host refuses to save the third) saved as
`C:\t\book.xls` in the format `CSV`, and one workbook saved as `b.xls`. -/
theorem C9_each_workbook_its_own_file_witness :
    (∃ recs tr1,
      WorkBooks.SaveAs exampleRuntime nestedHost
        [⟨1, Initialize⟩, ⟨2, Initialize⟩, ⟨3, Initialize⟩] []
        (.str "C:\\t\\book.xls" :: [.str "CSV"]) = some (recs, tr1) ∧
      (errsOf recs).length = [(⟨1, Initialize⟩ : WorkBook), ⟨2, Initialize⟩, ⟨3, Initialize⟩].length ∧
      recs.map (fun r => r.passed.head?) =
        (List.range [(⟨1, Initialize⟩ : WorkBook), ⟨2, Initialize⟩, ⟨3, Initialize⟩].length).map
          (fun i => some (GoValue.str (numberedPath "C:\\t\\book.xls" i))) ∧
      (∀ i : Nat, numberedPath "C:\\t\\book.xls" i ≠ "C:\\t\\book.xls") ∧
      (∀ i j : Nat, i ≠ j →
        numberedPath "C:\\t\\book.xls" i ≠ numberedPath "C:\\t\\book.xls" j) ∧
      (errsOf recs, tr1) =
        hostSaveAs nestedHost
          (List.zip ([(⟨1, Initialize⟩ : WorkBook), ⟨2, Initialize⟩, ⟨3, Initialize⟩].map
              WorkBook.Idisp)
            (sentArgs exampleRuntime [⟨1, Initialize⟩, ⟨2, Initialize⟩, ⟨3, Initialize⟩]
              "C:\\t\\book.xls" [.str "CSV"])) [] ∧
      (sentArgs exampleRuntime [⟨1, Initialize⟩, ⟨2, Initialize⟩, ⟨3, Initialize⟩]
        "C:\\t\\book.xls" [.str "CSV"]).length =
          [(⟨1, Initialize⟩ : WorkBook), ⟨2, Initialize⟩, ⟨3, Initialize⟩].length ∧
      ∃ names : List String,
        (sentArgs exampleRuntime [⟨1, Initialize⟩, ⟨2, Initialize⟩, ⟨3, Initialize⟩]
          "C:\\t\\book.xls" [.str "CSV"]).map List.head? =
            names.map (fun s => some (GoValue.str s)) ∧
        names.Nodup ∧ "C:\\t\\book.xls" ∉ names) ∧
    numberedPath "C:\\t\\book.xls" 2 = "C:\\t\\book_2.xls" ∧
    sentArgs exampleRuntime [⟨1, Initialize⟩, ⟨2, Initialize⟩, ⟨3, Initialize⟩]
      "C:\\t\\book.xls" [.str "CSV"] =
        [[.str "C:\\t\\book_0.xls.csv", .int 6], [.str "C:\\t\\book_1.xls", .int 6],
          [.str "C:\\t\\book_2.xls", .int 6]] ∧
    hostSaveAs nestedHost
      [(1, [.str "C:\\t\\book_0.xls.csv", .int 6]), (2, [.str "C:\\t\\book_1.xls", .int 6]),
        (3, [.str "C:\\t\\book_2.xls", .int 6])] [] =
      ([none, none, some "%WorkBook.SaveAs%cannot save"],
        [Event.call 1 "SaveAs" [.str "C:\\t\\book_0.xls.csv", .int 6] (.ok ⟨0, 0⟩),
          Event.call 2 "SaveAs" [.str "C:\\t\\book_1.xls", .int 6] (.ok ⟨0, 0⟩),
          Event.call 3 "SaveAs" [.str "C:\\t\\book_2.xls", .int 6] (.failed "cannot save")]) ∧
    (∃ recs tr1,
      WorkBooks.SaveAs exampleRuntime nestedHost [⟨1, Initialize⟩] [] [.str "b.xls"] =
        some (recs, tr1) ∧
      (errsOf recs).length = [(⟨1, Initialize⟩ : WorkBook)].length ∧
      recs.map SaveRecord.passed = [(⟨1, Initialize⟩ : WorkBook)].map (fun _ => [.str "b.xls"]) ∧
      errsOf recs = [(⟨1, Initialize⟩ : WorkBook)].map
        (fun wb => (WorkBook.SaveAs exampleRuntime nestedHost wb [] [.str "b.xls"]).err) ∧
      tr1 = [(⟨1, Initialize⟩ : WorkBook)].foldl
        (fun t wb => (WorkBook.SaveAs exampleRuntime nestedHost wb t [.str "b.xls"]).trace) []) :=
  ⟨(C9_each_workbook_its_own_file exampleRuntime nestedHost
      [⟨1, Initialize⟩, ⟨2, Initialize⟩, ⟨3, Initialize⟩] []).1 (by decide)
      "C:\\t\\book.xls" [.str "CSV"],
   by decide, by decide, by decide,
   (C9_each_workbook_its_own_file exampleRuntime nestedHost [⟨1, Initialize⟩] []).2
      (by decide) [.str "b.xls"]⟩

end Excel
